import Mathlib

/-!
Verification of the cognition kernel of the AgenticAI repository.

This file gives a shallow embedding, in Lean 4, of the three algorithmic
modules of the repository and proves (or refutes) the frozen claims about
them:

- the reasoning engine of src/core/reasoning.py: a confidence-weighted
  fact/rule knowledge base with forward-chaining inference,
- the memory system of src/core/memory.py: working/episodic/semantic
  stores with importance-based forgetting and similarity recall,
- the planner of src/core/planner.py: A*/BFS/DFS state-space search over
  caller-supplied actions, including a faithful model of CPython's
  heapq sift routines with Python's partial (exception-raising) tuple
  comparison.

Python dictionaries are modelled as association lists with
update-or-append assignment (preserving Python 3.7+ insertion order),
Python floats as exact rationals, and the wall clock as an explicit
time parameter.  Fallible operations return Except/Option values; an
`error` result models an uncaught Python exception.
-/

namespace AgentCore

/-- Association-list lookup, modelling Python `d.get(k)` / `d[k]`:
returns the value of the first (and in a real dict, only) binding. -/
def alGet {κ α : Type} [DecidableEq κ] : List (κ × α) → κ → Option α
  | [], _ => none
  | (k, v) :: rest, key => if k = key then some v else alGet rest key

/-- Association-list assignment, modelling Python `d[k] = v`:
overwrites in place when the key exists, appends otherwise, preserving
insertion order as Python 3.7+ dicts do. -/
def alSet {κ α : Type} [DecidableEq κ] : List (κ × α) → κ → α → List (κ × α)
  | [], key, v => [(key, v)]
  | (k, w) :: rest, key, v =>
    if k = key then (k, v) :: rest else (k, w) :: alSet rest key v

theorem alGet_alSet_self {κ α : Type} [DecidableEq κ] (l : List (κ × α)) (k : κ) (v : α) :
    alGet (alSet l k v) k = some v := by
  induction l with
  | nil => simp [alGet, alSet]
  | cons h t ih =>
    by_cases hk : h.1 = k
    · simp [alSet, alGet, hk]
    · simp [alSet, alGet, hk, ih]

theorem alGet_alSet_other {κ α : Type} [DecidableEq κ] (l : List (κ × α)) (k k' : κ)
    (v : α) (hne : k ≠ k') : alGet (alSet l k v) k' = alGet l k' := by
  induction l with
  | nil => simp [alGet, alSet, hne]
  | cons h t ih =>
    by_cases hk : h.1 = k
    · simp [alSet, alGet, hk, hne]
    · simp only [alSet, hk, if_false, alGet]
      by_cases hk' : h.1 = k' <;> simp [hk', ih]

/-! Rational arithmetic for the embedding.  Python float arithmetic is
modelled exactly over ℚ; the wrappers below are stated via `mkRat` /
`Rat.divInt` so that closed computations evaluate inside the kernel,
and are proved equal to the standard field operations for use with the
library lemmas. -/

/-- Addition on ℚ, evaluable by the kernel. -/
def qAdd (a b : ℚ) : ℚ := mkRat (a.num * b.den + b.num * a.den) (a.den * b.den)

/-- Subtraction on ℚ, evaluable by the kernel. -/
def qSub (a b : ℚ) : ℚ := mkRat (a.num * b.den - b.num * a.den) (a.den * b.den)

/-- Multiplication on ℚ, evaluable by the kernel. -/
def qMul (a b : ℚ) : ℚ := mkRat (a.num * b.num) (a.den * b.den)

/-- Division on ℚ, evaluable by the kernel (division by zero yields 0
here; Python would raise ZeroDivisionError, a case no modelled code
path reaches with the hypotheses used below). -/
def qDiv (a b : ℚ) : ℚ := Rat.divInt (a.num * b.den) (a.den * b.num)

theorem qAdd_eq (a b : ℚ) : qAdd a b = a + b := by
  have had : ((a.den : ℚ)) ≠ 0 := by exact_mod_cast a.den_ne_zero
  have hbd : ((b.den : ℚ)) ≠ 0 := by exact_mod_cast b.den_ne_zero
  rw [qAdd, Rat.mkRat_eq_div]
  push_cast
  conv_rhs => rw [← Rat.num_div_den a, ← Rat.num_div_den b]
  field_simp

theorem qSub_eq (a b : ℚ) : qSub a b = a - b := by
  have had : ((a.den : ℚ)) ≠ 0 := by exact_mod_cast a.den_ne_zero
  have hbd : ((b.den : ℚ)) ≠ 0 := by exact_mod_cast b.den_ne_zero
  rw [qSub, Rat.mkRat_eq_div]
  push_cast
  conv_rhs => rw [← Rat.num_div_den a, ← Rat.num_div_den b]
  field_simp
  ring

theorem qMul_eq (a b : ℚ) : qMul a b = a * b := by
  have had : ((a.den : ℚ)) ≠ 0 := by exact_mod_cast a.den_ne_zero
  have hbd : ((b.den : ℚ)) ≠ 0 := by exact_mod_cast b.den_ne_zero
  rw [qMul, Rat.mkRat_eq_div]
  push_cast
  conv_rhs => rw [← Rat.num_div_den a, ← Rat.num_div_den b]
  field_simp

theorem qDiv_eq (a b : ℚ) : qDiv a b = a / b := by
  rw [qDiv, Rat.divInt_eq_div]
  rcases eq_or_ne b 0 with rfl | hb
  · simp
  · have had : ((a.den : ℚ)) ≠ 0 := by exact_mod_cast a.den_ne_zero
    have hbd : ((b.den : ℚ)) ≠ 0 := by exact_mod_cast b.den_ne_zero
    have hbn : ((b.num : ℚ)) ≠ 0 := by exact_mod_cast Rat.num_ne_zero.mpr hb
    push_cast
    conv_rhs => rw [← Rat.num_div_den a, ← Rat.num_div_den b]
    field_simp

/-- Python `min` over a list of rationals: scan from the left, keep the
earliest minimum.  `none` models the ValueError of `min([])`. -/
def pyMinQ : List ℚ → Option ℚ
  | [] => none
  | x :: xs => some (xs.foldl (fun a b => if b < a then b else a) x)

/-- Stable insertion used to model CPython's stable `list.sort` /
`sorted`: `keep y x = true` means an element `y` already placed stays in
front of the newly inserted `x`. -/
def insWith {α : Type} (keep : α → α → Bool) (x : α) : List α → List α
  | [] => [x]
  | y :: ys => if keep y x then y :: insWith keep x ys else x :: y :: ys

/-- Stable sort by repeated insertion, processing the list left to
right, modelling CPython's stable sort for the orderings used by the
kernel. -/
def sortWith {α : Type} (keep : α → α → Bool) (l : List α) : List α :=
  l.foldl (fun acc x => insWith keep x acc) []

theorem mem_insWith {α : Type} (keep : α → α → Bool) (x a : α) (l : List α) :
    a ∈ insWith keep x l ↔ a = x ∨ a ∈ l := by
  induction l with
  | nil => simp [insWith]
  | cons y ys ih =>
    by_cases hky : keep y x = true
    · simp only [insWith, hky, if_true, List.mem_cons, ih]
      tauto
    · rw [Bool.not_eq_true] at hky
      simp only [insWith, hky, Bool.false_eq_true, if_false, List.mem_cons]

theorem mem_sortWith {α : Type} (keep : α → α → Bool) (l : List α) (a : α) :
    a ∈ sortWith keep l ↔ a ∈ l := by
  suffices h : ∀ acc : List α, a ∈ l.foldl (fun acc x => insWith keep x acc) acc ↔
      a ∈ l ∨ a ∈ acc by
    have := h []
    simpa [sortWith] using this
  induction l with
  | nil => intro acc; simp
  | cons y ys ih =>
    intro acc
    simp only [List.foldl_cons, ih, mem_insWith]
    constructor
    · rintro (h | h | h) <;> simp_all
    · rintro (h | h)
      · rcases List.mem_cons.mp h with h | h <;> tauto
      · tauto

theorem pairwise_insWith {α : Type} (keep : α → α → Bool) (R : α → α → Prop)
    (hkeepT : ∀ a b, keep a b = true → R a b)
    (hkeepF : ∀ a b, keep a b = false → R b a)
    (htrans : ∀ a b c, R a b → R b c → R a c)
    (x : α) (l : List α) (hl : l.Pairwise R) :
    (insWith keep x l).Pairwise R := by
  induction l with
  | nil => simp [insWith]
  | cons y ys ih =>
    rcases List.pairwise_cons.mp hl with ⟨hy, hys⟩
    by_cases hky : keep y x
    · simp only [insWith, hky, if_true]
      refine List.pairwise_cons.mpr ⟨?_, ih hys⟩
      intro b hb
      rcases (mem_insWith keep x b ys).mp hb with rfl | hb
      · exact hkeepT _ _ hky
      · exact hy b hb
    · simp only [insWith, hky, if_false]
      refine List.pairwise_cons.mpr ⟨?_, hl⟩
      intro b hb
      rcases List.mem_cons.mp hb with rfl | hb
      · exact hkeepF _ _ (by simpa using hky)
      · exact htrans _ _ _ (hkeepF _ _ (by simpa using hky)) (hy b hb)

theorem pairwise_sortWith {α : Type} (keep : α → α → Bool) (R : α → α → Prop)
    (hkeepT : ∀ a b, keep a b = true → R a b)
    (hkeepF : ∀ a b, keep a b = false → R b a)
    (htrans : ∀ a b c, R a b → R b c → R a c)
    (l : List α) : (sortWith keep l).Pairwise R := by
  suffices h : ∀ acc : List α, acc.Pairwise R →
      (l.foldl (fun acc x => insWith keep x acc) acc).Pairwise R by
    exact h [] (by simp)
  induction l with
  | nil => intro acc hacc; simpa using hacc
  | cons y ys ih =>
    intro acc hacc
    exact ih _ (pairwise_insWith keep R hkeepT hkeepF htrans y acc hacc)

/-! ## Reasoning engine (src/core/reasoning.py)

Facts are (subject, predicate) pairs; the fact set is modelled as a
duplicate-free list in insertion order, confidences as an association
list defaulting to 1.0 exactly as `self.confidences.get(p, 1.0)` does.
The `add_custom_rule` path (arbitrary Python callables mutating the
engine) is outside the claims and is not modelled; rules are the
premises/conclusion/confidence records built by `add_rule`. -/

/-- A fact of the knowledge base: a (subject, predicate) pair. -/
abbrev Fact := String × String

/-- An inference rule as built by `ReasoningEngine.add_rule`. -/
structure Rule where
  premises : List Fact
  conclusion : Fact
  confidence : ℚ
deriving DecidableEq

/-- One entry of `self.inference_chain`. -/
structure Step where
  depth : Nat
  premises : List Fact
  conclusion : Fact
  confidence : ℚ
deriving DecidableEq

/-- The mutable inference state of one `infer()` run: the fact set,
the confidence map, the derived-fact set and the inference chain. -/
structure RState where
  facts : List Fact
  confs : List (Fact × ℚ)
  derived : List Fact
  chain : List Step
deriving DecidableEq

/-- One rule considered inside the `for rule in self.rules` loop of
`_forward_chaining`.  Returns `none` when Python would raise
(`min([])` on an empty premise list of a firing rule), otherwise the
updated state and whether the rule fired (`changed`). -/
def fireRule (st : RState) (depth : Nat) (r : Rule) : Option (RState × Bool) :=
  if r.premises.all (fun p => decide (p ∈ st.facts)) then
    if r.conclusion ∈ st.facts then some (st, false)
    else
      match pyMinQ (r.premises.map (fun p => (alGet st.confs p).getD 1)) with
      | none => none
      | some m =>
        let c := qMul m r.confidence
        some ({ facts := st.facts ++ [r.conclusion]
                confs := alSet st.confs r.conclusion c
                derived := st.derived ++ [r.conclusion]
                chain := st.chain ++ [⟨depth, r.premises, r.conclusion, c⟩] }, true)
  else some (st, false)

/-- One full pass of the `for rule in self.rules` loop, threading the
`changed` flag. -/
def passRules (rules : List Rule) (depth : Nat) (st : RState) (changed : Bool) :
    Option (RState × Bool) :=
  match rules with
  | [] => some (st, changed)
  | r :: rest =>
    match fireRule st depth r with
    | none => none
    | some (st', b) => passRules rest depth st' (changed || b)

/-- The `while changed and depth < self.max_depth` loop of
`_forward_chaining`; the fuel argument is `max_depth - depth`, so fuel
zero is exactly the depth bound.  Returns the final state and the final
value of `depth`. -/
def fcGo (rules : List Rule) : Nat → Nat → RState → Option (RState × Nat)
  | 0, depth, st => some (st, depth)
  | fuel + 1, depth, st =>
    match passRules rules (depth + 1) st false with
    | none => none
    | some (st', changed) =>
      if changed then fcGo rules fuel (depth + 1) st' else some (st', depth + 1)

/-- The persistent state of a `ReasoningEngine` instance. -/
structure RE where
  method : String
  maxDepth : Nat
  facts : List Fact
  confs : List (Fact × ℚ)
  rules : List Rule
deriving DecidableEq

/-- The observable result of one `infer()` call: the updated engine,
the derived facts, the inference chain and the final pass depth. -/
structure InferOut where
  engine : RE
  derived : List Fact
  chain : List Step
  depth : Nat
deriving DecidableEq

/-- `ReasoningEngine.infer`: clears the derived set and the chain, then
dispatches on the method name; `backward_chaining`, `probabilistic` and
unknown methods all yield an empty derived set (the first two are
placeholders returning `[]`, the last logs a warning and returns `[]`). -/
def inferRE (re : RE) : Option InferOut :=
  if re.method = "forward_chaining" then
    match fcGo re.rules re.maxDepth 0 ⟨re.facts, re.confs, [], []⟩ with
    | none => none
    | some (st, d) =>
      some ⟨{ re with facts := st.facts, confs := st.confs }, st.derived, st.chain, d⟩
  else some ⟨re, [], [], 0⟩

/-! ## Memory system (src/core/memory.py)

Items are mappings from string keys to values; metadata keys
`_timestamp`, `_priority`, `_access_count`, `_id` are written into the
caller's item mapping by `store` before the branch on the memory type.
`datetime.now()` is modelled by an explicit rational `now` parameter
(seconds since some epoch); ages are then `now - timestamp` seconds as
in `(current_time - timestamp).total_seconds()`. -/

/-- A value stored in a memory item.  Python values are arbitrary; the
claims only need strings, numbers, booleans and `None`. -/
inductive Value where
  | vStr (s : String)
  | vNum (q : ℚ)
  | vBool (b : Bool)
  | vNone
deriving DecidableEq

/-- A memory item: a Python dict from string keys to values. -/
abbrev Item := List (String × Value)

/-- A recall query; `Query.dict` is the `isinstance(query, dict)` case. -/
inductive Query where
  | dict (fields : Item)
  | other (v : Value)
deriving DecidableEq

/-- Python truthiness of a value, used by `if item_id:` and
`item.get('key') or item_id`. -/
def truthy : Value → Bool
  | .vStr s => decide (s ≠ "")
  | .vNum q => decide (q ≠ 0)
  | .vBool b => b
  | .vNone => false

/-- The state of a `Memory` instance.  The access-count, last-access
and priority dicts are keyed by whatever object the item id is, hence
by `Value`. -/
structure MemState where
  memoryType : String
  capacity : Nat
  working : List Item
  episodic : List Item
  semantic : List (Value × Item)
  accessCounts : List (Value × Nat)
  lastAccess : List (Value × ℚ)
  priorities : List (Value × ℚ)
deriving DecidableEq

/-- The constructor state `Memory(capacity, memory_type)`. -/
def initMem (capacity : Nat) (memoryType : String) : MemState :=
  ⟨memoryType, capacity, [], [], [], [], [], []⟩

/-- Size measure of a value, feeding the stand-in hash below. -/
def vSize : Value → Nat
  | .vStr s => s.length
  | .vNum q => q.num.natAbs + q.den
  | .vBool _ => 1
  | .vNone => 0

/-- Deterministic stand-in for Python's `hash(str(item)) % 10000`
inside `_generate_id` (CPython string hashing is seed-randomised, so it
has no canonical value; no claim depends on this component, only on the
id being a function of the item and timestamp). -/
def pyHashItem (it : Item) : Nat :=
  ((it.map (fun kv => kv.1.length + vSize kv.2)).sum) % 10000

/-- `Memory._generate_id`: `"mem_" + timestamp + "_" + hash-component`.
The rational timestamp is rendered by numerator and denominator. -/
def genId (it : Item) (now : ℚ) : String :=
  "mem_" ++ toString now.num ++ "_" ++ toString now.den ++ "_" ++ toString (pyHashItem it)

/-- Appending to a `collections.deque(maxlen = cap)`: the new element
goes to the right and the leftmost elements beyond the bound are
silently discarded (for `maxlen = 0` the deque stays empty). -/
def dequeAppend (cap : Nat) (l : List Item) (x : Item) : List Item :=
  (l ++ [x]).drop ((l ++ [x]).length - cap)

/-- The importance score computed by `_forget_least_important` for a
stored item: `priority * (1 + access_count) * recency` with
`recency = 1 / (1 + age_in_hours)` and the age measured from the item's
stored `_timestamp` to the current time.  Priority and access count are
looked up by item id with the source's defaults 1.0 and 0; a missing or
non-numeric timestamp defaults to the current time as
`memory.get('_timestamp', current_time)` does. -/
def importanceOf (m : MemState) (now : ℚ) (it : Item) : ℚ :=
  let iid := alGet it "_id"
  let priority := match iid with
    | some v => (alGet m.priorities v).getD 1
    | none => 1
  let accessCount : Nat := match iid with
    | some v => (alGet m.accessCounts v).getD 0
    | none => 0
  let ts := match alGet it "_timestamp" with
    | some (.vNum t) => t
    | _ => now
  let age := qSub now ts
  let recency := qDiv 1 (qAdd 1 (qDiv age 3600))
  qMul (qMul priority (qAdd 1 (accessCount : ℚ))) recency

/-- `Memory._forget_least_important`: score every episodic item, sort
ascending by score (stably, as `list.sort(key = first component)`),
remove the first — an item of minimal importance.  Returns the new
buffer and the evicted item, `none` when the buffer was empty. -/
def forgetLI (m : MemState) (now : ℚ) : List Item × Option Item :=
  match m.episodic with
  | [] => (m.episodic, none)
  | _ :: _ =>
    let scores := m.episodic.map (fun it => (importanceOf m now it, it))
    match sortWith (fun a b => decide (a.1 ≤ b.1)) scores with
    | [] => (m.episodic, none)
    | (_, least) :: _ => (m.episodic.erase least, some least)

/-- `Memory.store(item, priority)` at wall-clock time `now`.  Returns
the new memory state, the caller's item as it looks after the call
(the source mutates the argument in place before storing it), and the
item evicted by the episodic capacity check, if any. -/
def store (m : MemState) (item : Item) (priority : ℚ) (now : ℚ) :
    MemState × Item × Option Item :=
  let item1 := alSet item "_timestamp" (.vNum now)
  let item2 := alSet item1 "_priority" (.vNum priority)
  let item3 := alSet item2 "_access_count" (.vNum 0)
  let iid := genId item3 now
  let item4 := alSet item3 "_id" (.vStr iid)
  if m.memoryType = "working" then
    ({ m with working := dequeAppend 100 m.working item4 }, item4, none)
  else if m.memoryType = "episodic" then
    let fe := if m.capacity ≤ m.episodic.length then forgetLI m now
      else (m.episodic, none)
    ({ m with episodic := dequeAppend m.capacity fe.1 item4
              priorities := alSet m.priorities (.vStr iid) priority }, item4, fe.2)
  else if m.memoryType = "semantic" then
    let key := match alGet item4 "key" with
      | some v => if truthy v then v else .vStr iid
      | none => .vStr iid
    ({ m with semantic := alSet m.semantic key item4 }, item4, none)
  else (m, item4, none)

/-- A sequence of `store` calls, each with its item, priority and
wall-clock time. -/
def runStores (m : MemState) : List (Item × ℚ × ℚ) → MemState
  | [] => m
  | (it, p, t) :: rest => runStores (store m it p t).1 rest

/-- The placeholder `Memory._calculate_similarity`: 0.7 when the query
is a dict and the stored item has a `state` key, else 0.5. -/
def calcSim (q : Query) (it : Item) : ℚ :=
  match q with
  | .dict _ => if (alGet it "state").isSome then mkRat 7 10 else mkRat 1 2
  | .other _ => mkRat 1 2

/-- The list the `recall` loop iterates over, chosen by memory type
(the final `else` covers the semantic store, whose dict values are
listed in insertion order). -/
def memoriesOf (m : MemState) : List Item :=
  if m.memoryType = "episodic" then m.episodic
  else if m.memoryType = "working" then m.working
  else m.semantic.map (fun kv => kv.2)

/-- The scoring loop of `Memory.recall`: for each stored item compute
the similarity; when at or above the threshold, collect the
(score, item) pair and bump the access metadata of the item's id (the
id must be truthy, matching `if item_id:`). -/
def recallLoop (q : Query) (θ : ℚ) (now : ℚ) :
    List Item → List (ℚ × Item) → List (Value × Nat) → List (Value × ℚ) →
    List (ℚ × Item) × List (Value × Nat) × List (Value × ℚ)
  | [], scored, counts, la => (scored, counts, la)
  | it :: rest, scored, counts, la =>
    let sim := calcSim q it
    if θ ≤ sim then
      let scored' := scored ++ [(sim, it)]
      match alGet it "_id" with
      | some v =>
        if truthy v then
          recallLoop q θ now rest scored'
            (alSet counts v ((alGet counts v).getD 0 + 1)) (alSet la v now)
        else recallLoop q θ now rest scored' counts la
      | none => recallLoop q θ now rest scored' counts la
    else recallLoop q θ now rest scored counts la

/-- The observable result of `Memory.recall`: the updated memory state
(access metadata) and the returned items. -/
structure RecallOut where
  mem : MemState
  recalled : List Item
deriving DecidableEq

/-- `Memory.recall(query, k, similarity_threshold)` at time `now`:
score all stored items, keep those at or above the threshold, sort by
score descending (stably), return the top `k`. -/
def recallMem (m : MemState) (q : Query) (k : Nat) (θ : ℚ) (now : ℚ) : RecallOut :=
  let memories := memoriesOf m
  if memories.isEmpty then ⟨m, []⟩
  else
    let out := recallLoop q θ now memories [] m.accessCounts m.lastAccess
    let sorted := sortWith (fun a b => decide (b.1 ≤ a.1)) out.1
    let recalled := (sorted.take k).map (fun pr => pr.2)
    ⟨{ m with accessCounts := out.2.1, lastAccess := out.2.2 }, recalled⟩

/-! ## Planner (src/core/planner.py)

States are Python dicts from variable names to values of an arbitrary
decidable-equality type `V`; actions carry caller-supplied precondition
and effect functions and a cost.  The A* frontier is CPython's `heapq`
over 4-tuples `(f_score, state, path, g_cost)`; Python tuple comparison
scans for the first component where the tuples differ and applies `<`
there, so two entries with equal `f_score` and different states make
CPython attempt `dict < dict`, which raises `TypeError`.  The heap
routines below are transcribed from CPython's `heapq.heappush` /
`heapq.heappop` / `_siftdown` / `_siftup` with that partial comparison
returned as an `Except` error. -/

/-- A planner state: a Python dict from variable names to values. -/
abbrev PState (V : Type) := List (String × V)

/-- An action registered with `Planner.register_action`. -/
structure PAction (V : Type) where
  name : String
  preconditions : PState V → Bool
  effects : PState V → PState V
  cost : ℚ

/-- `Planner._is_goal`: every goal binding must be matched by the
state; `state.get(key)` yields `None` for a missing key, which equals
no modelled value, so a missing key is a mismatch. -/
def isGoal {V : Type} [DecidableEq V] (state goal : PState V) : Bool :=
  goal.all (fun kv => decide (alGet state kv.1 = some kv.2))

/-- `Planner._state_to_key`, i.e. `str(sorted(state.items()))`:
the canonical serialisation is determined by the key-sorted binding
list (`sorted` is stable and real dicts have unique keys, so sorting by
key alone is faithful). -/
def stateKey {V : Type} (s : PState V) : PState V :=
  sortWith (fun a b => decide (a.1 ≤ b.1)) s

/-- A frontier entry `(f_score, state, path, g_cost)`. -/
structure PEntry (V : Type) where
  f : ℚ
  state : PState V
  path : List String
  g : ℚ
deriving DecidableEq

/-- Python `<` on lists of strings (lexicographic, scanning for the
first unequal element). -/
def pyListStrLt : List String → List String → Bool
  | [], [] => false
  | [], _ :: _ => true
  | _ :: _, [] => false
  | x :: xs, y :: ys => if x = y then pyListStrLt xs ys else decide (x < y)

/-- Python `<` on two frontier tuples: scan for the first component
where the tuples differ (`==`), then compare with `<` there.  Equal
`f_score` with different state dicts reaches `dict < dict`, which
raises `TypeError` — the `error` case. -/
def entryLt {V : Type} [DecidableEq V] (a b : PEntry V) : Except Unit Bool :=
  if a.f ≠ b.f then .ok (decide (a.f < b.f))
  else if a.state ≠ b.state then .error ()
  else if a.path ≠ b.path then .ok (pyListStrLt a.path b.path)
  else .ok (decide (a.g < b.g))

/-- The `while pos > startpos` loop of CPython's `heapq._siftdown`,
with the moved item `newitem` held aside; the fuel starts at `pos + 1`
and the position strictly decreases, so the fuel never runs out. -/
def siftdownGo {V : Type} [DecidableEq V] (startpos : Nat) (newitem : PEntry V) :
    Nat → Nat → List (PEntry V) → Except Unit (List (PEntry V))
  | 0, pos, heap => .ok (heap.set pos newitem)
  | fuel + 1, pos, heap =>
    if startpos < pos then
      let parentpos := (pos - 1) / 2
      match heap[parentpos]? with
      | none => .ok (heap.set pos newitem)
      | some parent =>
        match entryLt newitem parent with
        | .error e => .error e
        | .ok true => siftdownGo startpos newitem fuel parentpos (heap.set pos parent)
        | .ok false => .ok (heap.set pos newitem)
    else .ok (heap.set pos newitem)

/-- CPython `heapq._siftdown(heap, startpos, pos)`. -/
def siftdown {V : Type} [DecidableEq V] (heap : List (PEntry V)) (startpos pos : Nat) :
    Except Unit (List (PEntry V)) :=
  match heap[pos]? with
  | none => .ok heap
  | some newitem => siftdownGo startpos newitem (pos + 1) pos heap

/-- CPython `heapq.heappush(heap, item)`: append, then sift down from
the last position. -/
def heappush {V : Type} [DecidableEq V] (heap : List (PEntry V)) (item : PEntry V) :
    Except Unit (List (PEntry V)) :=
  siftdown (heap ++ [item]) 0 heap.length

/-- The child selection of CPython's `heapq._siftup`:
`if rightpos < endpos and not heap[childpos] < heap[rightpos]:
childpos = rightpos`, with the comparison's TypeError propagated. -/
def pickChild {V : Type} [DecidableEq V] (endpos : Nat) (heap : List (PEntry V))
    (childpos : Nat) : Except Unit Nat :=
  let rightpos := childpos + 1
  if rightpos < endpos then
    match heap[childpos]?, heap[rightpos]? with
    | some cl, some cr =>
      match entryLt cl cr with
      | .error e => .error e
      | .ok b => .ok (if b then childpos else rightpos)
    | _, _ => .ok childpos
  else .ok childpos

/-- The child-chasing loop of CPython's `heapq._siftup`: repeatedly
move the smaller child up; returns the final heap and position.  The
position strictly increases and stays below `endpos`, so fuel
`endpos + 1` suffices. -/
def siftupGo {V : Type} [DecidableEq V] (endpos : Nat) :
    Nat → Nat → List (PEntry V) → Except Unit (List (PEntry V) × Nat)
  | 0, pos, heap => .ok (heap, pos)
  | fuel + 1, pos, heap =>
    let childpos := 2 * pos + 1
    if childpos < endpos then
      match pickChild endpos heap childpos with
      | .error e => .error e
      | .ok cp =>
        match heap[cp]? with
        | none => .ok (heap, pos)
        | some c => siftupGo endpos fuel cp (heap.set pos c)
    else .ok (heap, pos)

/-- CPython `heapq._siftup(heap, pos)`: chase the smaller children up,
place `newitem` at the final position, then sift down towards the
original position. -/
def siftup {V : Type} [DecidableEq V] (heap : List (PEntry V)) (pos : Nat) :
    Except Unit (List (PEntry V)) :=
  match heap[pos]? with
  | none => .ok heap
  | some newitem =>
    match siftupGo heap.length (heap.length + 1) pos heap with
    | .error e => .error e
    | .ok (heap', pos') => siftdown (heap'.set pos' newitem) pos pos'

/-- CPython `heapq.heappop(heap)`: pop the last element; if the heap
is still non-empty, the root is returned and the last element is sifted
up from the root.  Popping an empty heap raises IndexError (`error`);
the planner's loop guard keeps this unreachable. -/
def heappop {V : Type} [DecidableEq V] (heap : List (PEntry V)) :
    Except Unit (PEntry V × List (PEntry V)) :=
  match heap.getLast? with
  | none => .error ()
  | some lastelt =>
    let rest := heap.dropLast
    match rest[0]? with
    | none => .ok (lastelt, [])
    | some returnitem =>
      match siftup (rest.set 0 lastelt) 0 with
      | .error e => .error e
      | .ok h' => .ok (returnitem, h')

/-- The terminal status of one planning call: a plan with its reported
cost, no plan (budget or frontier exhaustion), or an uncaught
`TypeError` escaping from a heap comparison. -/
inductive POutcome where
  | plan (p : List String) (cost : ℚ)
  | noPlan
  | typeErr
deriving DecidableEq

/-- The observable result of one search: the outcome, the final
`nodes_explored` counter, and — as instrumentation for the claims —
the list of states that were actually expanded (popped, found
unvisited, and processed), in expansion order. -/
structure PResult (V : Type) where
  outcome : POutcome
  explored : Nat
  expanded : List (PState V)
deriving DecidableEq

/-- Push the successors of one expanded entry, iterating over the
action list exactly as `for action in self.actions` does; stops with
the exception if a `heappush` comparison raises. -/
def expandPush {V : Type} [DecidableEq V] (goal : PState V)
    (heur : Option (PState V → PState V → ℚ)) (e : PEntry V) :
    List (PAction V) → List (PEntry V) → Except Unit (List (PEntry V))
  | [], frontier => .ok frontier
  | a :: rest, frontier =>
    if a.preconditions e.state then
      let nextState := a.effects e.state
      let g' := qAdd e.g a.cost
      let h : ℚ := match heur with
        | some hf => hf nextState goal
        | none => 0
      match heappush frontier ⟨qAdd g' h, nextState, e.path ++ [a.name], g'⟩ with
      | .error err => .error err
      | .ok frontier' => expandPush goal heur e rest frontier'
    else expandPush goal heur e rest frontier

/-- The main loop of `Planner._a_star_search`.  The fuel is
`max_depth - nodes_explored`, so fuel zero is exactly the node-budget
guard `self.nodes_explored < self.max_depth`. -/
def aStarGo {V : Type} [DecidableEq V] (acts : List (PAction V)) (goal : PState V)
    (heur : Option (PState V → PState V → ℚ)) :
    Nat → List (PEntry V) → List (PState V) → Nat → List (PState V) → PResult V
  | 0, _, _, explored, expanded => ⟨.noPlan, explored, expanded⟩
  | fuel + 1, frontier, visited, explored, expanded =>
    if frontier.isEmpty then ⟨.noPlan, explored, expanded⟩
    else
      match heappop frontier with
      | .error _ => ⟨.typeErr, explored, expanded⟩
      | .ok (e, frontier') =>
        let explored' := explored + 1
        let key := stateKey e.state
        if key ∈ visited then aStarGo acts goal heur fuel frontier' visited explored' expanded
        else
          let visited' := visited ++ [key]
          let expanded' := expanded ++ [e.state]
          if isGoal e.state goal then ⟨.plan e.path e.g, explored', expanded'⟩
          else
            match expandPush goal heur e acts frontier' with
            | .error _ => ⟨.typeErr, explored', expanded'⟩
            | .ok frontier'' => aStarGo acts goal heur fuel frontier'' visited' explored' expanded'

/-- `Planner._a_star_search(initial_state, goal)` with node budget
`maxDepth`: the frontier starts as `[(0, initial_state, [], 0)]`. -/
def aStarSearch {V : Type} [DecidableEq V] (acts : List (PAction V))
    (heur : Option (PState V → PState V → ℚ)) (maxDepth : Nat)
    (initial goal : PState V) : PResult V :=
  aStarGo acts goal heur maxDepth [⟨0, initial, [], 0⟩] [] 0 []

/-- The main loop of `Planner._breadth_first_search`: a FIFO queue of
`(state, path, cost)` triples, same visited logic, no cost ordering. -/
def bfsGo {V : Type} [DecidableEq V] (acts : List (PAction V)) (goal : PState V) :
    Nat → List (PState V × List String × ℚ) → List (PState V) → Nat → List (PState V) →
    PResult V
  | 0, _, _, explored, expanded => ⟨.noPlan, explored, expanded⟩
  | fuel + 1, queue, visited, explored, expanded =>
    match queue with
    | [] => ⟨.noPlan, explored, expanded⟩
    | (s, path, cost) :: queue' =>
      let explored' := explored + 1
      let key := stateKey s
      if key ∈ visited then bfsGo acts goal fuel queue' visited explored' expanded
      else
        let visited' := visited ++ [key]
        let expanded' := expanded ++ [s]
        if isGoal s goal then ⟨.plan path cost, explored', expanded'⟩
        else
          let queue'' := queue' ++ acts.filterMap (fun a =>
            if a.preconditions s then some (a.effects s, path ++ [a.name], qAdd cost a.cost)
            else none)
          bfsGo acts goal fuel queue'' visited' explored' expanded'

/-- `Planner._breadth_first_search(initial_state, goal)`. -/
def bfsSearch {V : Type} [DecidableEq V] (acts : List (PAction V)) (maxDepth : Nat)
    (initial goal : PState V) : PResult V :=
  bfsGo acts goal maxDepth [(initial, [], 0)] [] 0 []

/-- The main loop of `Planner._depth_first_search`: a LIFO stack of
`(state, path, cost, depth)` tuples popped from the right, with the
extra `if depth > self.max_depth: continue` check before the visited
test. -/
def dfsGo {V : Type} [DecidableEq V] (acts : List (PAction V)) (goal : PState V)
    (maxD : Nat) :
    Nat → List (PState V × List String × ℚ × Nat) → List (PState V) → Nat →
    List (PState V) → PResult V
  | 0, _, _, explored, expanded => ⟨.noPlan, explored, expanded⟩
  | fuel + 1, stack, visited, explored, expanded =>
    match stack.getLast? with
    | none => ⟨.noPlan, explored, expanded⟩
    | some (s, path, cost, depth) =>
      let stack' := stack.dropLast
      let explored' := explored + 1
      if maxD < depth then dfsGo acts goal maxD fuel stack' visited explored' expanded
      else
        let key := stateKey s
        if key ∈ visited then dfsGo acts goal maxD fuel stack' visited explored' expanded
        else
          let visited' := visited ++ [key]
          let expanded' := expanded ++ [s]
          if isGoal s goal then ⟨.plan path cost, explored', expanded'⟩
          else
            let stack'' := stack' ++ acts.filterMap (fun a =>
              if a.preconditions s then
                some (a.effects s, path ++ [a.name], qAdd cost a.cost, depth + 1)
              else none)
            dfsGo acts goal maxD fuel stack'' visited' explored' expanded'

/-- `Planner._depth_first_search(initial_state, goal)`. -/
def dfsSearch {V : Type} [DecidableEq V] (acts : List (PAction V)) (maxDepth : Nat)
    (initial goal : PState V) : PResult V :=
  dfsGo acts goal maxDepth maxDepth [(initial, [], 0, 0)] [] 0 []

/-- `Planner.create_plan`: dispatch on the algorithm name; the STRIPS
placeholder degrades to A*, an unknown algorithm logs an error and
returns an empty plan. -/
def createPlan {V : Type} [DecidableEq V] (algorithm : String) (acts : List (PAction V))
    (heur : Option (PState V → PState V → ℚ)) (maxDepth : Nat)
    (initial goal : PState V) : PResult V :=
  if algorithm = "a_star" then aStarSearch acts heur maxDepth initial goal
  else if algorithm = "bfs" then bfsSearch acts maxDepth initial goal
  else if algorithm = "dfs" then dfsSearch acts maxDepth initial goal
  else if algorithm = "strips" then aStarSearch acts heur maxDepth initial goal
  else ⟨.noPlan, 0, []⟩

/-- The plan list `create_plan` hands back to the caller: the found
path, or `[]` for both exhaustion outcomes. -/
def planOf {V : Type} (r : PResult V) : List String :=
  match r.outcome with
  | .plan p _ => p
  | _ => []

/-- External replay of a plan: look each action up by name, check its
precondition, apply its effect, and accumulate the action costs. -/
def findAct {V : Type} (acts : List (PAction V)) (n : String) : Option (PAction V) :=
  match acts with
  | [] => none
  | a :: rest => if a.name = n then some a else findAct rest n

/-- Sequential execution of a plan from a state, with total cost. -/
def execPlan {V : Type} (acts : List (PAction V)) :
    PState V → List String → Option (PState V × ℚ)
  | s, [] => some (s, 0)
  | s, n :: ns =>
    match findAct acts n with
    | none => none
    | some a =>
      if a.preconditions s then
        (execPlan acts (a.effects s) ns).map (fun r => (r.1, qAdd a.cost r.2))
      else none

/-- All action sequences applicable from a state, up to a length
bound, with their total cost and end state; used to express bounded
optimality facts about concrete planning problems. -/
def plansUpTo {V : Type} [DecidableEq V] (acts : List (PAction V)) :
    Nat → PState V → List (List String × ℚ × PState V)
  | 0, s => [([], 0, s)]
  | n + 1, s =>
    ([], 0, s) :: (acts.map (fun a =>
      if a.preconditions s then
        (plansUpTo acts n (a.effects s)).map
          (fun t => (a.name :: t.1, qAdd a.cost t.2.1, t.2.2))
      else [])).flatten

/-- Costs of the bounded plans that reach a goal-satisfying state. -/
def goalCosts {V : Type} [DecidableEq V] (acts : List (PAction V)) (n : Nat)
    (s goal : PState V) : List ℚ :=
  (plansUpTo acts n s).filterMap
    (fun t => if isGoal t.2.2 goal then some t.2.1 else none)

end AgentCore

namespace AgentCore

/-! ## Lemmas about forward chaining -/

theorem qMul_comm (a b : ℚ) : qMul a b = qMul b a := by
  rw [qMul_eq, qMul_eq, mul_comm]

/-- A rule that cannot fire on a fact set: either some premise is
missing or the conclusion is already known. -/
def ruleStable (facts : List Fact) (r : Rule) : Prop :=
  r.premises.all (fun p => decide (p ∈ facts)) = true → r.conclusion ∈ facts

theorem fireRule_false {st st' : RState} {d : Nat} {r : Rule}
    (h : fireRule st d r = some (st', false)) : st' = st := by
  unfold fireRule at h
  split at h
  · split at h
    · simp only [Option.some.injEq, Prod.mk.injEq] at h
      exact h.1.symm
    · split at h
      · cases h
      · simp only [Option.some.injEq, Prod.mk.injEq] at h
        cases h.2
  · simp only [Option.some.injEq, Prod.mk.injEq] at h
    exact h.1.symm

theorem fireRule_false_stable {st : RState} {d : Nat} {r : Rule}
    (h : fireRule st d r = some (st, false)) : ruleStable st.facts r := by
  intro hall
  unfold fireRule at h
  rw [if_pos hall] at h
  by_cases hc : r.conclusion ∈ st.facts
  · exact hc
  · rw [if_neg hc] at h
    split at h
    · cases h
    · simp only [Option.some.injEq, Prod.mk.injEq] at h
      cases h.2

theorem fireRule_of_stable {f : List Fact} {r : Rule} (hs : ruleStable f r)
    {st : RState} (hf : st.facts = f) (d : Nat) : fireRule st d r = some (st, false) := by
  subst hf
  unfold fireRule
  by_cases hall : r.premises.all (fun p => decide (p ∈ st.facts)) = true
  · rw [if_pos hall, if_pos (hs hall)]
  · rw [if_neg hall]

theorem passRules_false {rules : List Rule} {d : Nat} {st st' : RState} {ch : Bool}
    (h : passRules rules d st ch = some (st', false)) :
    st' = st ∧ ch = false ∧ ∀ r ∈ rules, fireRule st d r = some (st, false) := by
  induction rules generalizing st ch with
  | nil =>
    simp only [passRules, Option.some.injEq, Prod.mk.injEq] at h
    exact ⟨h.1.symm, h.2, by simp⟩
  | cons r rest ih =>
    simp only [passRules] at h
    cases hfr : fireRule st d r with
    | none => rw [hfr] at h; cases h
    | some p =>
      rw [hfr] at h
      obtain ⟨st1, b⟩ := p
      obtain ⟨h1, h2, h3⟩ := ih h
      have hb : b = false := by
        cases b
        · rfl
        · simp at h2
      subst hb
      have hst1 : st1 = st := fireRule_false hfr
      subst hst1
      refine ⟨h1, by simpa using h2, ?_⟩
      intro r' hr'
      rcases List.mem_cons.mp hr' with rfl | hr'
      · exact hfr
      · exact h3 r' hr'

theorem passRules_of_stable {rules : List Rule} {f : List Fact}
    (hs : ∀ r ∈ rules, ruleStable f r) {st : RState} (hf : st.facts = f)
    (d : Nat) (ch : Bool) : passRules rules d st ch = some (st, ch) := by
  induction rules with
  | nil => rfl
  | cons r rest ih =>
    simp only [passRules, fireRule_of_stable (hs r (by simp)) hf d]
    simpa using ih (fun r' hr' => hs r' (List.mem_cons_of_mem _ hr'))

theorem fcGo_final {rules : List Rule} {fuel depth : Nat} {st st' : RState} {d' : Nat}
    (h : fcGo rules fuel depth st = some (st', d')) (hlt : d' < depth + fuel) :
    passRules rules d' st' false = some (st', false) := by
  induction fuel generalizing depth st with
  | zero =>
    simp only [fcGo, Option.some.injEq, Prod.mk.injEq] at h
    obtain ⟨-, h2⟩ := h
    omega
  | succ n ih =>
    simp only [fcGo] at h
    cases hp : passRules rules (depth + 1) st false with
    | none => rw [hp] at h; cases h
    | some q =>
      obtain ⟨st1, changed⟩ := q
      rw [hp] at h
      dsimp only at h
      cases changed with
      | true =>
        rw [if_pos rfl] at h
        exact ih h (by omega)
      | false =>
        rw [if_neg (by simp)] at h
        simp only [Option.some.injEq, Prod.mk.injEq] at h
        obtain ⟨rfl, rfl⟩ := h
        have h1 := passRules_false hp
        rw [h1.1]
        rw [h1.1] at hp
        exact hp

/-! ## Claim C2: fixed-point idempotence of infer() -/

/-- The chain fact used by the C2 counterexample: `("a", "p<i>")`. -/
def c2fact (i : Nat) : Fact := ("a", "p" ++ toString i)

/-- Twelve chain rules listed in reverse order, so that each forward
pass fires exactly one of them. -/
def c2rules : List Rule :=
  ((List.range 12).reverse).map (fun i => ⟨[c2fact i], c2fact (i + 1), 1⟩)

/-- An engine with the default depth bound 10, the single fact `a p0`
and the reversed 12-rule chain: the first `infer()` stops at the depth
bound with facts `a p0 .. a p10` still growing. -/
def c2re : RE := ⟨"forward_chaining", 10, [c2fact 0], [(c2fact 0, 1)], c2rules⟩

/-- C2, counterexample: on `c2re` the first `infer()` hits the depth
bound, and the second `infer()` derives the two remaining chain facts —
a non-empty derived set, refuting the claim as stated for arbitrary
fact/rule sets. -/
theorem claim2_counterexample :
    ((inferRE c2re).bind fun o1 => (inferRE o1.engine).map (fun o2 => o2.derived))
        = some [c2fact 11, c2fact 12] ∧
      [c2fact 11, c2fact 12] ≠ ([] : List Fact) := by
  constructor
  · decide
  · decide

/-- C2 (amended): if the first `infer()` reaches its fixed point before
the depth bound (its final pass depth is below `max_depth`), then a
second `infer()` with no intervening `add_fact`/`add_rule` yields an
empty derived-fact set. -/
theorem claim2_theorem (re : RE) (o : InferOut) (h : inferRE re = some o)
    (hd : o.depth < re.maxDepth) :
    ∃ o2, inferRE o.engine = some o2 ∧ o2.derived = [] := by
  unfold inferRE at h
  by_cases hm : re.method = "forward_chaining"
  · rw [if_pos hm] at h
    cases hfc : fcGo re.rules re.maxDepth 0 ⟨re.facts, re.confs, [], []⟩ with
    | none => rw [hfc] at h; cases h
    | some q =>
      obtain ⟨st, d⟩ := q
      rw [hfc] at h
      simp only [Option.some.injEq] at h
      subst h
      dsimp only at hd
      have hpass := fcGo_final hfc (by omega)
      have hstable : ∀ r ∈ re.rules, ruleStable st.facts r := fun r hr =>
        fireRule_false_stable ((passRules_false hpass).2.2 r hr)
      cases hMD : re.maxDepth with
      | zero => omega
      | succ m =>
        refine ⟨⟨{ re with facts := st.facts, confs := st.confs }, [], [], 1⟩, ?_, rfl⟩
        unfold inferRE
        dsimp only
        rw [if_pos hm, hMD]
        simp only [fcGo]
        have hp2 := passRules_of_stable hstable
          (show (⟨st.facts, st.confs, [], []⟩ : RState).facts = st.facts from rfl)
          (0 + 1) false
        rw [hp2]
        rfl
  · rw [if_neg hm] at h
    simp only [Option.some.injEq] at h
    subst h
    refine ⟨⟨re, [], [], 0⟩, ?_, rfl⟩
    unfold inferRE
    dsimp only
    rw [if_neg hm]

/-- The engine of spec example scenario 1 after its first `infer()`:
fact `sky blue`, rule `sky blue => weather clear` with confidence 0.9,
derived fact recorded with confidence 0.9 at depth 1, final depth 2. -/
def skyRE : RE :=
  ⟨"forward_chaining", 10, [("sky", "blue")], [(("sky", "blue"), 1)],
    [⟨[("sky", "blue")], ("weather", "clear"), mkRat 9 10⟩]⟩

/-- C2, witness: the amended theorem applied to the scenario-1 engine,
whose first `infer()` converges at depth 2 < 10. -/
theorem claim2_witness :
    ∃ o2, inferRE ⟨"forward_chaining", 10, [("sky", "blue"), ("weather", "clear")],
      [(("sky", "blue"), 1), (("weather", "clear"), mkRat 9 10)],
      [⟨[("sky", "blue")], ("weather", "clear"), mkRat 9 10⟩]⟩ = some o2 ∧
      o2.derived = [] :=
  claim2_theorem skyRE
    ⟨⟨"forward_chaining", 10, [("sky", "blue"), ("weather", "clear")],
      [(("sky", "blue"), 1), (("weather", "clear"), mkRat 9 10)],
      [⟨[("sky", "blue")], ("weather", "clear"), mkRat 9 10⟩]⟩,
     [("weather", "clear")],
     [⟨1, [("sky", "blue")], ("weather", "clear"), mkRat 9 10⟩], 2⟩
    (by decide) (by decide)

/-! ## Claim C6: confidence of derived facts -/

/-- The invariant carried through a forward-chaining run: every chain
entry comes from a rule of the engine, its premises are (still) facts,
and its confidence is the rule's confidence times the minimum premise
confidence — expressed against the current confidence map, which the
run never changes on existing facts. -/
def chainInv (rules : List Rule) (st : RState) : Prop :=
  ∀ s ∈ st.chain, ∃ r ∈ rules, s.premises = r.premises ∧ s.conclusion = r.conclusion ∧
    (∀ p ∈ r.premises, p ∈ st.facts) ∧
    ∃ mc, pyMinQ (r.premises.map (fun p => (alGet st.confs p).getD 1)) = some mc ∧
      s.confidence = qMul r.confidence mc

theorem fireRule_chainInv {rules : List Rule} {st st' : RState} {d : Nat} {r : Rule}
    {b : Bool} (hr : r ∈ rules) (hInv : chainInv rules st)
    (h : fireRule st d r = some (st', b)) : chainInv rules st' := by
  unfold fireRule at h
  split at h
  case isFalse hall =>
    simp only [Option.some.injEq, Prod.mk.injEq] at h
    rw [← h.1]
    exact hInv
  case isTrue hall =>
    split at h
    case isTrue hc =>
      simp only [Option.some.injEq, Prod.mk.injEq] at h
      rw [← h.1]
      exact hInv
    case isFalse hc =>
      cases hmin : pyMinQ (r.premises.map (fun p => (alGet st.confs p).getD 1)) with
      | none => rw [hmin] at h; cases h
      | some m =>
        rw [hmin] at h
        simp only [Option.some.injEq, Prod.mk.injEq] at h
        rw [← h.1]
        have hprem : ∀ p ∈ r.premises, p ∈ st.facts := by
          intro p hp
          exact of_decide_eq_true (List.all_eq_true.mp hall p hp)
        have hkeep : ∀ p, p ∈ st.facts →
            alGet (alSet st.confs r.conclusion (qMul m r.confidence)) p = alGet st.confs p := by
          intro p hp
          have : r.conclusion ≠ p := fun he => hc (he ▸ hp)
          exact alGet_alSet_other st.confs r.conclusion p _ this
        intro s hs
        dsimp only at hs
        rcases List.mem_append.mp hs with hs | hs
        · obtain ⟨r', hr', h1, h2, h3, mc, h4, h5⟩ := hInv s hs
          refine ⟨r', hr', h1, h2, ?_, mc, ?_, h5⟩
          · intro p hp
            exact List.mem_append_left _ (h3 p hp)
          · dsimp only
            rw [List.map_congr_left (fun p hp => by rw [hkeep p (h3 p hp)])]
            exact h4
        · rcases List.mem_singleton.mp hs with rfl
          refine ⟨r, hr, rfl, rfl, ?_, m, ?_, qMul_comm m r.confidence⟩
          · intro p hp
            exact List.mem_append_left _ (hprem p hp)
          · dsimp only
            rw [List.map_congr_left (fun p hp => by rw [hkeep p (hprem p hp)])]
            exact hmin

theorem passRules_chainInv {rules rs : List Rule} {d : Nat} {st st' : RState}
    {ch b : Bool} (hsub : ∀ r ∈ rs, r ∈ rules) (hInv : chainInv rules st)
    (h : passRules rs d st ch = some (st', b)) : chainInv rules st' := by
  induction rs generalizing st ch with
  | nil =>
    simp only [passRules, Option.some.injEq, Prod.mk.injEq] at h
    rw [← h.1]
    exact hInv
  | cons r rest ih =>
    simp only [passRules] at h
    cases hfr : fireRule st d r with
    | none => rw [hfr] at h; cases h
    | some p =>
      obtain ⟨st1, b1⟩ := p
      rw [hfr] at h
      exact ih (fun r' hr' => hsub r' (List.mem_cons_of_mem _ hr'))
        (fireRule_chainInv (hsub r (by simp)) hInv hfr) h

theorem fcGo_chainInv {rules : List Rule} {fuel depth : Nat} {st st' : RState} {d' : Nat}
    (hInv : chainInv rules st) (h : fcGo rules fuel depth st = some (st', d')) :
    chainInv rules st' := by
  induction fuel generalizing depth st with
  | zero =>
    simp only [fcGo, Option.some.injEq, Prod.mk.injEq] at h
    rw [← h.1]
    exact hInv
  | succ n ih =>
    simp only [fcGo] at h
    cases hp : passRules rules (depth + 1) st false with
    | none => rw [hp] at h; cases h
    | some q =>
      obtain ⟨st1, changed⟩ := q
      rw [hp] at h
      dsimp only at h
      have hInv1 : chainInv rules st1 := passRules_chainInv (fun r hr => hr) hInv hp
      cases changed with
      | true =>
        rw [if_pos rfl] at h
        exact ih hInv1 h
      | false =>
        rw [if_neg (by simp)] at h
        simp only [Option.some.injEq, Prod.mk.injEq] at h
        rw [← h.1]
        exact hInv1

/-- C6: every step recorded in the inference chain of an `infer()` run
was produced by a rule of the engine, with confidence equal to the
rule's confidence times the minimum confidence of the rule's premises.
Premise confidences are never overwritten during a run (only brand-new
facts receive confidence entries), so the minimum is stated against the
engine's confidence map after the run, which agrees with the map at
firing time. -/
theorem claim6_theorem (re : RE) (o : InferOut) (h : inferRE re = some o) :
    ∀ s ∈ o.chain, ∃ r ∈ re.rules,
      s.premises = r.premises ∧ s.conclusion = r.conclusion ∧
      ∃ mc, pyMinQ (r.premises.map (fun p => (alGet o.engine.confs p).getD 1)) = some mc ∧
        s.confidence = qMul r.confidence mc := by
  unfold inferRE at h
  by_cases hm : re.method = "forward_chaining"
  · rw [if_pos hm] at h
    cases hfc : fcGo re.rules re.maxDepth 0 ⟨re.facts, re.confs, [], []⟩ with
    | none => rw [hfc] at h; cases h
    | some q =>
      obtain ⟨st, d⟩ := q
      rw [hfc] at h
      simp only [Option.some.injEq] at h
      subst h
      have hInv : chainInv re.rules st :=
        fcGo_chainInv (fun s hs => by cases hs) hfc
      intro s hs
      obtain ⟨r, hr, h1, h2, _, mc, h4, h5⟩ := hInv s hs
      exact ⟨r, hr, h1, h2, mc, h4, h5⟩
  · rw [if_neg hm] at h
    simp only [Option.some.injEq] at h
    subst h
    intro s hs
    cases hs

/-- C6, witness: on the scenario-1 engine the single recorded step has
confidence `0.9 = rule confidence 0.9 times minimum premise
confidence 1`. -/
theorem claim6_witness :
    ∃ r ∈ skyRE.rules,
      Step.premises ⟨1, [("sky", "blue")], ("weather", "clear"), mkRat 9 10⟩ = r.premises ∧
      Step.conclusion ⟨1, [("sky", "blue")], ("weather", "clear"), mkRat 9 10⟩ = r.conclusion ∧
      ∃ mc, pyMinQ (r.premises.map (fun p =>
          (alGet [(("sky", "blue"), (1 : ℚ)), (("weather", "clear"), mkRat 9 10)] p).getD 1))
          = some mc ∧
        Step.confidence ⟨1, [("sky", "blue")], ("weather", "clear"), mkRat 9 10⟩
          = qMul r.confidence mc :=
  claim6_theorem skyRE
    ⟨⟨"forward_chaining", 10, [("sky", "blue"), ("weather", "clear")],
      [(("sky", "blue"), 1), (("weather", "clear"), mkRat 9 10)],
      [⟨[("sky", "blue")], ("weather", "clear"), mkRat 9 10⟩]⟩,
     [("weather", "clear")],
     [⟨1, [("sky", "blue")], ("weather", "clear"), mkRat 9 10⟩], 2⟩
    (by decide)
    ⟨1, [("sky", "blue")], ("weather", "clear"), mkRat 9 10⟩ (by decide)

/-! ## Lemmas about the memory system -/

theorem dequeAppend_length_le (cap : Nat) (l : List Item) (x : Item) :
    (dequeAppend cap l x).length ≤ cap := by
  rw [dequeAppend, List.length_drop]
  generalize (l ++ [x]).length = n
  omega

theorem dequeAppend_getLast (cap : Nat) (hcap : 1 ≤ cap) (l : List Item) (x : Item) :
    (dequeAppend cap l x).getLast? = some x := by
  have hle : (l ++ [x]).length - cap ≤ l.length := by
    simp only [List.length_append, List.length_cons, List.length_nil]
    omega
  rw [dequeAppend, List.drop_append_of_le_length hle, List.getLast?_concat]

theorem store_item (m : MemState) (item : Item) (p now : ℚ) :
    (store m item p now).2.1 =
      alSet (alSet (alSet (alSet item "_timestamp" (.vNum now)) "_priority" (.vNum p))
        "_access_count" (.vNum 0)) "_id"
        (.vStr (genId (alSet (alSet (alSet item "_timestamp" (.vNum now)) "_priority"
          (.vNum p)) "_access_count" (.vNum 0)) now)) := by
  unfold store
  split
  · rfl
  · split
    · rfl
    · split
      · rfl
      · rfl

theorem store_memoryType (m : MemState) (item : Item) (p now : ℚ) :
    (store m item p now).1.memoryType = m.memoryType ∧
    (store m item p now).1.capacity = m.capacity := by
  unfold store
  split
  · exact ⟨rfl, rfl⟩
  · split
    · exact ⟨rfl, rfl⟩
    · split
      · exact ⟨rfl, rfl⟩
      · exact ⟨rfl, rfl⟩

theorem store_episodic_length (m : MemState) (item : Item) (p now : ℚ)
    (hm : m.memoryType = "episodic") :
    (store m item p now).1.episodic.length ≤ m.capacity := by
  unfold store
  rw [if_neg (by rw [hm]; decide), if_pos hm]
  exact dequeAppend_length_le _ _ _

theorem runStores_length (cap : Nat) (ops : List (Item × ℚ × ℚ)) (m : MemState)
    (hm : m.memoryType = "episodic") (hc : m.capacity = cap)
    (hl : m.episodic.length ≤ cap) :
    (runStores m ops).episodic.length ≤ cap := by
  induction ops generalizing m with
  | nil => exact hl
  | cons op rest ih =>
    obtain ⟨it, p, t⟩ := op
    have h1 := store_memoryType m it p t
    exact ih (store m it p t).1 (h1.1.trans hm) (h1.2.trans hc)
      (hc ▸ store_episodic_length m it p t hm)

/-- The ascending stable sort used by eviction keeps pairs ordered by
their first components. -/
theorem sortAsc_pairwise (l : List (ℚ × Item)) :
    (sortWith (fun a b => decide (a.1 ≤ b.1)) l).Pairwise
      (fun a b : ℚ × Item => a.1 ≤ b.1) := by
  refine pairwise_sortWith _ _ ?_ ?_ ?_ l
  · intro a b h
    exact of_decide_eq_true h
  · intro a b h
    have := of_decide_eq_false h
    exact le_of_not_le this
  · intro a b c h1 h2
    exact h1.trans h2

theorem forgetLI_min (m : MemState) (now : ℚ) (e : Item)
    (h : (forgetLI m now).2 = some e) :
    e ∈ m.episodic ∧ ∀ it ∈ m.episodic, importanceOf m now e ≤ importanceOf m now it := by
  unfold forgetLI at h
  cases hep : m.episodic with
  | nil => rw [hep] at h; cases h
  | cons h0 t0 =>
    rw [← hep]
    rw [hep] at h
    dsimp only at h
    rw [← hep] at h
    cases hsort : sortWith (fun a b => decide (a.1 ≤ b.1))
        (m.episodic.map (fun it => (importanceOf m now it, it))) with
    | nil => rw [hsort] at h; cases h
    | cons pr rest =>
      rw [hsort] at h
      obtain ⟨imp, least⟩ := pr
      dsimp only at h
      have he : e = least := by
        simpa using h.symm
      subst he
      have hmem : (imp, e) ∈
          m.episodic.map (fun it => (importanceOf m now it, it)) := by
        rw [← mem_sortWith (fun a b => decide (a.1 ≤ b.1))]
        rw [hsort]
        exact List.mem_cons_self _ _
      obtain ⟨it0, hit0, heq⟩ := List.mem_map.mp hmem
      have himp : importanceOf m now it0 = imp := ((Prod.mk.injEq _ _ _ _).mp heq).1
      have hee : it0 = e := ((Prod.mk.injEq _ _ _ _).mp heq).2
      subst hee
      refine ⟨hit0, ?_⟩
      intro it hit
      have hmem2 : (importanceOf m now it, it) ∈
          sortWith (fun a b => decide (a.1 ≤ b.1))
            (m.episodic.map (fun x => (importanceOf m now x, x))) := by
        rw [mem_sortWith]
        exact List.mem_map_of_mem _ hit
      rw [hsort] at hmem2
      rcases List.mem_cons.mp hmem2 with hhd | htl
      · have h5 : importanceOf m now it = imp := ((Prod.mk.injEq _ _ _ _).mp hhd).1
        rw [← himp] at h5
        exact le_of_eq h5.symm
      · have hpw := sortAsc_pairwise (m.episodic.map (fun x => (importanceOf m now x, x)))
        rw [hsort] at hpw
        have h6 := (List.pairwise_cons.mp hpw).1 _ htl
        rw [himp]
        simpa using h6

theorem store_evicted (m : MemState) (item : Item) (p now : ℚ) (e : Item)
    (h : (store m item p now).2.2 = some e) :
    e ∈ m.episodic ∧ ∀ it ∈ m.episodic, importanceOf m now e ≤ importanceOf m now it := by
  unfold store at h
  split at h
  · cases h
  · split at h
    · dsimp only at h
      split at h
      · exact forgetLI_min m now e h
      · cases h
    · split at h
      · cases h
      · cases h

/-- C3: after any sequence of `store()` calls on an episodic memory of
capacity C the buffer holds at most C items, and whenever a `store()`
call evicts an item, the evicted item is one of minimal importance —
`priority * (1 + access_count) * recency`, `recency = 1/(1 + age_in_hours)`
from the item's stored creation timestamp — among all buffered items at
eviction time. -/
theorem claim3_theorem (capacity : Nat) (ops : List (Item × ℚ × ℚ)) (m : MemState)
    (item : Item) (p now : ℚ) (e : Item) :
    (runStores (initMem capacity "episodic") ops).episodic.length ≤ capacity ∧
    ((store m item p now).2.2 = some e →
      e ∈ m.episodic ∧ ∀ it ∈ m.episodic,
        importanceOf m now e ≤ importanceOf m now it) := by
  constructor
  · exact runStores_length capacity ops _ rfl rfl (by simp [initMem])
  · intro h
    exact store_evicted m item p now e h

/-- The concrete memory state of the C3 witness: capacity 2, items
`a` (priority 1) and `b` (priority 1/2), both stored at time 0. -/
def c3mem : MemState :=
  { initMem 2 "episodic" with
      episodic := [[("_id", Value.vStr "a"), ("_timestamp", Value.vNum 0)],
                   [("_id", Value.vStr "b"), ("_timestamp", Value.vNum 0)]],
      priorities := [(Value.vStr "a", 1), (Value.vStr "b", mkRat 1 2)] }

/-- The item the C3 witness store evicts. -/
def c3evicted : Item := [("_id", Value.vStr "b"), ("_timestamp", Value.vNum 0)]

/-- The store trace of the C3 witness capacity check. -/
def c3ops : List (Item × ℚ × ℚ) :=
  [([("k", Value.vNum 1)], 1, 1), ([("k", Value.vNum 2)], 1, 2),
   ([("k", Value.vNum 3)], 1, 3)]

/-- C3, witness: three stores into a fresh capacity-2 episodic memory
leave at most 2 items, and the store into `c3mem` at time 3600 evicts
`b`, an item of minimal importance. -/
theorem claim3_witness :
    (runStores (initMem 2 "episodic") c3ops).episodic.length ≤ 2 ∧
      (c3evicted ∈ c3mem.episodic ∧ ∀ it ∈ c3mem.episodic,
        importanceOf c3mem 3600 c3evicted ≤ importanceOf c3mem 3600 it) :=
  ⟨(claim3_theorem 2 c3ops c3mem [("note", Value.vStr "new")] 1 3600 c3evicted).1,
   (claim3_theorem 2 c3ops c3mem [("note", Value.vStr "new")] 1 3600 c3evicted).2
     (by decide)⟩

/-! ## Claims C4 and C5: recall contract and access-count side effect -/

/-- Every pair the recall scoring loop adds is well formed: its score
is the similarity of its item and meets the threshold. -/
theorem recallLoop_scored (q : Query) (θ now : ℚ) (l : List Item) :
    ∀ scored counts la, ∀ pr ∈ (recallLoop q θ now l scored counts la).1,
      pr ∈ scored ∨ (pr.1 = calcSim q pr.2 ∧ θ ≤ pr.1) := by
  induction l with
  | nil =>
    intro scored counts la pr hpr
    exact Or.inl hpr
  | cons it rest ih =>
    intro scored counts la pr hpr
    rw [recallLoop] at hpr
    by_cases hθ : θ ≤ calcSim q it
    · rw [if_pos hθ] at hpr
      have hstep : ∀ counts' la',
          pr ∈ (recallLoop q θ now rest (scored ++ [(calcSim q it, it)]) counts' la').1 →
          pr ∈ scored ∨ (pr.1 = calcSim q pr.2 ∧ θ ≤ pr.1) := by
        intro counts' la' h
        rcases ih _ _ _ pr h with h | h
        · rcases List.mem_append.mp h with h | h
          · exact Or.inl h
          · rcases List.mem_singleton.mp h with rfl
            exact Or.inr ⟨rfl, hθ⟩
        · exact Or.inr h
      split at hpr
      · split at hpr
        · exact hstep _ _ hpr
        · exact hstep _ _ hpr
      · exact hstep _ _ hpr
    · rw [if_neg hθ] at hpr
      exact ih _ _ _ pr hpr

/-- C4: `recall()` returns at most `k` items, every returned item
scores at least the similarity threshold, and the returned items are
sorted by descending similarity score. -/
theorem claim4_theorem (m : MemState) (q : Query) (k : Nat) (θ now : ℚ) :
    (recallMem m q k θ now).recalled.length ≤ k ∧
    (∀ it ∈ (recallMem m q k θ now).recalled, θ ≤ calcSim q it) ∧
    ((recallMem m q k θ now).recalled.map (fun it => calcSim q it)).Pairwise
      (fun a b => b ≤ a) := by
  unfold recallMem
  by_cases hempty : (memoriesOf m).isEmpty
  · rw [if_pos hempty]
    refine ⟨by simp, by simp, by simp⟩
  · rw [if_neg hempty]
    dsimp only
    set out := recallLoop q θ now (memoriesOf m) [] m.accessCounts m.lastAccess with hout
    set sorted := sortWith (fun a b : ℚ × Item => decide (b.1 ≤ a.1)) out.1 with hsorted
    have hwf : ∀ pr ∈ sorted, pr.1 = calcSim q pr.2 ∧ θ ≤ pr.1 := by
      intro pr hpr
      rw [hsorted, mem_sortWith] at hpr
      rcases recallLoop_scored q θ now (memoriesOf m) [] m.accessCounts m.lastAccess
          pr hpr with h | h
      · cases h
      · exact h
    refine ⟨?_, ?_, ?_⟩
    · simp only [List.length_map, List.length_take]
      exact min_le_left _ _
    · intro it hit
      obtain ⟨pr, hpr, hpr2⟩ := List.mem_map.mp hit
      have hmem : pr ∈ sorted := List.take_subset k sorted hpr
      have := hwf pr hmem
      rw [← hpr2, ← this.1]
      exact this.2
    · have hpw : sorted.Pairwise (fun a b : ℚ × Item => b.1 ≤ a.1) := by
        refine pairwise_sortWith _ _ ?_ ?_ ?_ out.1
        · intro a b h
          exact of_decide_eq_true h
        · intro a b h
          exact le_of_not_le (of_decide_eq_false h)
        · intro a b c h1 h2
          exact h2.trans h1
      have hpw2 : (sorted.take k).Pairwise (fun a b : ℚ × Item => b.1 ≤ a.1) :=
        hpw.sublist (List.take_sublist k sorted)
      rw [List.pairwise_map, List.pairwise_map]
      refine hpw2.imp_of_mem ?_
      intro a b ha hb h
      have hwa := hwf a (List.take_subset k sorted ha)
      have hwb := hwf b (List.take_subset k sorted hb)
      rw [← hwa.1, ← hwb.1]
      exact h

/-- The memory state of the C4/C5 witnesses: two episodic items, one
carrying a `state` key (similarity 0.7), one without (similarity 0.5). -/
def c4mem : MemState :=
  { initMem 5 "episodic" with
      episodic := [[("state", Value.vStr "s"), ("_id", Value.vStr "i1")],
                   [("_id", Value.vStr "i2")]] }

/-- C4, witness: recalling from `c4mem` with threshold 0.6 returns at
most 5 items and the first stored item meets the threshold. -/
theorem claim4_witness :
    (recallMem c4mem (Query.dict []) 5 (mkRat 3 5) 0).recalled.length ≤ 5 ∧
      mkRat 3 5 ≤ calcSim (Query.dict [])
        [("state", Value.vStr "s"), ("_id", Value.vStr "i1")] :=
  ⟨(claim4_theorem c4mem (Query.dict []) 5 (mkRat 3 5) 0).1,
   (claim4_theorem c4mem (Query.dict []) 5 (mkRat 3 5) 0).2.1
     [("state", Value.vStr "s"), ("_id", Value.vStr "i1")] (by decide)⟩

/-- The id of an item as the `recall` loop sees it: the `_id` value
when present and truthy, else nothing (`if item_id:` skips the
metadata update otherwise). -/
def itemIdVal (it : Item) : Option Value :=
  match alGet it "_id" with
  | some v => if truthy v then some v else none
  | none => none

/-- Items whose id differs from `v` never touch the access count of
`v`. -/
theorem recallLoop_counts_other (q : Query) (θ now : ℚ) (v : Value) (l : List Item) :
    ∀ scored counts la, (∀ it ∈ l, itemIdVal it ≠ some v) →
      alGet (recallLoop q θ now l scored counts la).2.1 v = alGet counts v := by
  induction l with
  | nil =>
    intro scored counts la _
    rfl
  | cons it rest ih =>
    intro scored counts la hne
    have hrest : ∀ it' ∈ rest, itemIdVal it' ≠ some v := fun it' h =>
      hne it' (List.mem_cons_of_mem _ h)
    rw [recallLoop]
    by_cases hθ : θ ≤ calcSim q it
    · rw [if_pos hθ]
      cases hid : alGet it "_id" with
      | none => exact ih _ _ _ hrest
      | some w =>
        dsimp only
        by_cases hw : truthy w
        · rw [if_pos hw]
          have hwv : w ≠ v := by
            intro hEq
            exact hne it (List.mem_cons_self _ _)
              (by rw [← hEq]; simp [itemIdVal, hid, hw])
          rw [ih _ _ _ hrest, alGet_alSet_other counts w v _ hwv]
        · rw [if_neg hw]
          exact ih _ _ _ hrest
    · rw [if_neg hθ]
      exact ih _ _ _ hrest

/-- The access-count bookkeeping of the scoring loop: with items that
all carry pairwise-distinct truthy ids, each item's count rises by one
exactly when its similarity meets the threshold. -/
theorem recallLoop_counts (q : Query) (θ now : ℚ) (l : List Item) :
    ∀ scored counts la, (∀ it ∈ l, (itemIdVal it).isSome) →
      (l.map itemIdVal).Nodup →
      ∀ it ∈ l, ∀ v, itemIdVal it = some v →
        (alGet (recallLoop q θ now l scored counts la).2.1 v).getD 0 =
          (alGet counts v).getD 0 + (if θ ≤ calcSim q it then 1 else 0) := by
  induction l with
  | nil =>
    intro _ _ _ _ _ it hit
    cases hit
  | cons hd rest ih =>
    intro scored counts la hsome hnodup it hit v hv
    have hsomehd := hsome hd (List.mem_cons_self _ _)
    obtain ⟨v0, hv0⟩ : ∃ v0, itemIdVal hd = some v0 :=
      Option.isSome_iff_exists.mp hsomehd
    have hid : alGet hd "_id" = some v0 ∧ truthy v0 = true := by
      rw [itemIdVal] at hv0
      cases hg : alGet hd "_id" with
      | none => rw [hg] at hv0; cases hv0
      | some w =>
        rw [hg] at hv0
        dsimp only at hv0
        by_cases hw : truthy w
        · rw [if_pos hw] at hv0
          have hweq : w = v0 := Option.some.inj hv0
          subst hweq
          exact ⟨rfl, hw⟩
        · rw [if_neg hw] at hv0
          cases hv0
    have hrest_ne_v0 : ∀ it' ∈ rest, itemIdVal it' ≠ some v0 := by
      intro it' hit' hEq
      have : itemIdVal hd ∈ rest.map itemIdVal := by
        rw [hv0, ← hEq]
        exact List.mem_map_of_mem _ hit'
      exact (List.nodup_cons.mp (by simpa using hnodup)).1 this
    rcases List.mem_cons.mp hit with rfl | hit'
    · have hvv : v = v0 := by
        rw [hv] at hv0
        exact Option.some.inj hv0
      subst hvv
      rw [recallLoop]
      by_cases hθ : θ ≤ calcSim q it
      · rw [if_pos hθ, hid.1]
        dsimp only
        rw [if_pos hid.2]
        rw [recallLoop_counts_other q θ now v rest _ _ _ hrest_ne_v0]
        rw [alGet_alSet_self, if_pos hθ]
        rfl
      · rw [if_neg hθ]
        rw [recallLoop_counts_other q θ now v rest _ _ _ hrest_ne_v0]
        rw [if_neg hθ]
        rfl
    · have hvne : v0 ≠ v := by
        intro hEq
        exact hrest_ne_v0 it hit' (by rw [hv, hEq])
      have hsome' : ∀ x ∈ rest, (itemIdVal x).isSome := fun x hx =>
        hsome x (List.mem_cons_of_mem _ hx)
      have hnodup' : (rest.map itemIdVal).Nodup :=
        (List.nodup_cons.mp (by simpa using hnodup)).2
      rw [recallLoop]
      by_cases hθ : θ ≤ calcSim q hd
      · rw [if_pos hθ, hid.1]
        dsimp only
        rw [if_pos hid.2]
        rw [ih _ _ _ hsome' hnodup' it hit' v hv]
        rw [alGet_alSet_other counts v0 v _ hvne]
      · rw [if_neg hθ]
        exact ih _ _ _ hsome' hnodup' it hit' v hv

/-- C5: a `recall(query, k, threshold)` call increments the access
count of every stored item whose similarity meets the threshold by
exactly one — including above-threshold items beyond the returned top
`k` — and leaves every below-threshold item's count unchanged.  Stated
for buffers whose items carry pairwise-distinct truthy ids, as items
produced by `store()` do. -/
theorem claim5_theorem (m : MemState) (q : Query) (k : Nat) (θ now : ℚ)
    (hsome : ∀ it ∈ memoriesOf m, (itemIdVal it).isSome)
    (hnodup : ((memoriesOf m).map itemIdVal).Nodup) :
    ∀ it ∈ memoriesOf m, ∀ v, itemIdVal it = some v →
      (alGet (recallMem m q k θ now).mem.accessCounts v).getD 0 =
        (alGet m.accessCounts v).getD 0 + (if θ ≤ calcSim q it then 1 else 0) := by
  intro it hit v hv
  unfold recallMem
  by_cases hempty : (memoriesOf m).isEmpty
  · rw [List.isEmpty_iff] at hempty
    rw [hempty] at hit
    cases hit
  · rw [if_neg (by simpa using hempty)]
    dsimp only
    exact recallLoop_counts q θ now (memoriesOf m) [] m.accessCounts m.lastAccess
      hsome hnodup it hit v hv

/-- C5, witness: in `c4mem` the item with a `state` key scores 0.7 at
threshold 0.6 and its access count rises from 0 to 1. -/
theorem claim5_witness :
    (alGet (recallMem c4mem (Query.dict []) 5 (mkRat 3 5) 0).mem.accessCounts
        (Value.vStr "i1")).getD 0 =
      (alGet c4mem.accessCounts (Value.vStr "i1")).getD 0 +
        (if mkRat 3 5 ≤ calcSim (Query.dict [])
            [("state", Value.vStr "s"), ("_id", Value.vStr "i1")] then 1 else 0) :=
  claim5_theorem c4mem (Query.dict []) 5 (mkRat 3 5) 0 (by decide) (by decide)
    [("state", Value.vStr "s"), ("_id", Value.vStr "i1")] (by decide)
    (Value.vStr "i1") (by decide)

/-! ## Claim C10: store mutates the caller's item before storing it -/

/-- C10: for every memory type, `store(item, priority)` writes the
metadata keys `_timestamp`, `_priority`, `_access_count` and `_id`
into the caller's item mapping (the source mutates the argument object
in place; the mutated mapping is the second component of the model's
result), and the object placed in the working buffer / episodic buffer
/ semantic table is that same enriched mapping.  The episodic clause
assumes capacity at least 1, since a capacity-0 deque silently drops
the append. -/
theorem claim10_theorem (m : MemState) (item : Item) (p now : ℚ) :
    (alGet (store m item p now).2.1 "_timestamp" = some (Value.vNum now) ∧
     alGet (store m item p now).2.1 "_priority" = some (Value.vNum p) ∧
     alGet (store m item p now).2.1 "_access_count" = some (Value.vNum 0) ∧
     ∃ i, alGet (store m item p now).2.1 "_id" = some (Value.vStr i)) ∧
    (m.memoryType = "working" →
      (store m item p now).1.working.getLast? = some (store m item p now).2.1) ∧
    (m.memoryType = "episodic" → 1 ≤ m.capacity →
      (store m item p now).1.episodic.getLast? = some (store m item p now).2.1) ∧
    (m.memoryType = "semantic" →
      ∃ key, alGet (store m item p now).1.semantic key = some (store m item p now).2.1) := by
  refine ⟨?_, ?_, ?_, ?_⟩
  · rw [store_item]
    refine ⟨?_, ?_, ?_, ?_⟩
    · rw [alGet_alSet_other _ _ _ _ (by decide), alGet_alSet_other _ _ _ _ (by decide),
        alGet_alSet_other _ _ _ _ (by decide), alGet_alSet_self]
    · rw [alGet_alSet_other _ _ _ _ (by decide), alGet_alSet_other _ _ _ _ (by decide),
        alGet_alSet_self]
    · rw [alGet_alSet_other _ _ _ _ (by decide), alGet_alSet_self]
    · exact ⟨_, alGet_alSet_self _ _ _⟩
  · intro hm
    unfold store
    rw [if_pos hm]
    dsimp only
    exact dequeAppend_getLast 100 (by omega) _ _
  · intro hm hcap
    unfold store
    rw [if_neg (by rw [hm]; decide), if_pos hm]
    dsimp only
    exact dequeAppend_getLast m.capacity hcap _ _
  · intro hm
    unfold store
    rw [if_neg (by rw [hm]; decide), if_neg (by rw [hm]; decide), if_pos hm]
    dsimp only
    exact ⟨_, alGet_alSet_self _ _ _⟩

/-- C10, witness: one store into a fresh capacity-2 episodic memory at
time 5 stamps the caller's item and appends exactly that enriched item
to the buffer. -/
theorem claim10_witness :
    alGet (store (initMem 2 "episodic") [("note", Value.vStr "x")] 1 5).2.1 "_timestamp"
        = some (Value.vNum 5) ∧
      (store (initMem 2 "episodic") [("note", Value.vStr "x")] 1 5).1.episodic.getLast?
        = some (store (initMem 2 "episodic") [("note", Value.vStr "x")] 1 5).2.1 :=
  ⟨(claim10_theorem (initMem 2 "episodic") [("note", Value.vStr "x")] 1 5).1.1,
   (claim10_theorem (initMem 2 "episodic") [("note", Value.vStr "x")] 1 5).2.2.1
     rfl (by decide)⟩

/-! ## Claim C9: the frontier heap raises TypeError on f-score ties -/

/-- Two always-applicable unit-cost actions producing different
states: their frontier entries tie on `f_score`, so pushing the second
makes the heap compare the state dicts. -/
def c9acts : List (PAction String) :=
  [⟨"set_x", fun _ => true, fun s => alSet s "x" "1", 1⟩,
   ⟨"set_y", fun _ => true, fun s => alSet s "y" "1", 1⟩]

/-- C9: there is a planning input with total, non-raising precondition
and effect functions on which `create_plan` with the `a_star` strategy
raises an uncaught TypeError: expanding the initial state pushes two
entries with equal `f_score` and different state dicts, and the
`heappush` sift comparison falls through to `dict < dict`. -/
theorem claim9_theorem :
    (createPlan "a_star" c9acts none 100 [] [("z", "9")]).outcome = POutcome.typeErr := by
  decide

/-! ## Claim C7: no state is expanded twice in one planning call -/

theorem nodup_snoc {α : Type} (l : List α) (a : α) (h : l.Nodup) (ha : a ∉ l) :
    (l ++ [a]).Nodup := by
  rw [List.nodup_append]
  refine ⟨h, List.nodup_singleton a, ?_⟩
  intro x hx hxa
  exact ha ((List.mem_singleton.mp hxa) ▸ hx)

theorem aStarGo_nodup {V : Type} [DecidableEq V] (acts : List (PAction V))
    (goal : PState V) (heur : Option (PState V → PState V → ℚ)) :
    ∀ (fuel : Nat) frontier visited explored expanded,
      List.map stateKey expanded = visited → visited.Nodup →
      ((aStarGo acts goal heur fuel frontier visited explored expanded).expanded.map
        stateKey).Nodup := by
  intro fuel
  induction fuel with
  | zero =>
    intro frontier visited explored expanded hmap hnd
    simp only [aStarGo]
    rw [hmap]
    exact hnd
  | succ n ih =>
    intro frontier visited explored expanded hmap hnd
    simp only [aStarGo]
    by_cases hempt : frontier.isEmpty
    · rw [if_pos hempt]
      rw [hmap]
      exact hnd
    · rw [if_neg hempt]
      cases hpop : heappop frontier with
      | error err =>
        rw [hmap]
        exact hnd
      | ok pr =>
        obtain ⟨e, frontier'⟩ := pr
        dsimp only
        by_cases hv : stateKey e.state ∈ visited
        · rw [if_pos hv]
          exact ih frontier' visited _ expanded hmap hnd
        · rw [if_neg hv]
          have hmap' : List.map stateKey (expanded ++ [e.state])
              = visited ++ [stateKey e.state] := by
            rw [List.map_append, hmap]
            rfl
          have hnd' : (visited ++ [stateKey e.state]).Nodup :=
            nodup_snoc visited (stateKey e.state) hnd hv
          by_cases hg : isGoal e.state goal
          · rw [if_pos hg]
            rw [hmap']
            exact hnd'
          · rw [if_neg hg]
            cases hexp : expandPush goal heur e acts frontier' with
            | error err =>
              rw [hmap']
              exact hnd'
            | ok f2 =>
              exact ih f2 (visited ++ [stateKey e.state]) _ (expanded ++ [e.state])
                hmap' hnd'

theorem bfsGo_nodup {V : Type} [DecidableEq V] (acts : List (PAction V))
    (goal : PState V) :
    ∀ (fuel : Nat) queue visited explored expanded,
      List.map stateKey expanded = visited → visited.Nodup →
      ((bfsGo acts goal fuel queue visited explored expanded).expanded.map
        stateKey).Nodup := by
  intro fuel
  induction fuel with
  | zero =>
    intro queue visited explored expanded hmap hnd
    simp only [bfsGo]
    rw [hmap]
    exact hnd
  | succ n ih =>
    intro queue visited explored expanded hmap hnd
    cases queue with
    | nil =>
      simp only [bfsGo]
      rw [hmap]
      exact hnd
    | cons hd queue' =>
      obtain ⟨s, path, cost⟩ := hd
      simp only [bfsGo]
      by_cases hv : stateKey s ∈ visited
      · rw [if_pos hv]
        exact ih queue' visited _ expanded hmap hnd
      · rw [if_neg hv]
        have hmap' : List.map stateKey (expanded ++ [s])
            = visited ++ [stateKey s] := by
          rw [List.map_append, hmap]
          rfl
        have hnd' : (visited ++ [stateKey s]).Nodup :=
          nodup_snoc visited (stateKey s) hnd hv
        by_cases hg : isGoal s goal
        · rw [if_pos hg]
          rw [hmap']
          exact hnd'
        · rw [if_neg hg]
          exact ih _ (visited ++ [stateKey s]) _ (expanded ++ [s]) hmap' hnd'

theorem dfsGo_nodup {V : Type} [DecidableEq V] (acts : List (PAction V))
    (goal : PState V) (maxD : Nat) :
    ∀ (fuel : Nat) stack visited explored expanded,
      List.map stateKey expanded = visited → visited.Nodup →
      ((dfsGo acts goal maxD fuel stack visited explored expanded).expanded.map
        stateKey).Nodup := by
  intro fuel
  induction fuel with
  | zero =>
    intro stack visited explored expanded hmap hnd
    simp only [dfsGo]
    rw [hmap]
    exact hnd
  | succ n ih =>
    intro stack visited explored expanded hmap hnd
    simp only [dfsGo]
    cases hlast : stack.getLast? with
    | none =>
      rw [hmap]
      exact hnd
    | some hd =>
      obtain ⟨s, path, cost, depth⟩ := hd
      dsimp only
      by_cases hdep : maxD < depth
      · rw [if_pos hdep]
        exact ih _ visited _ expanded hmap hnd
      · rw [if_neg hdep]
        by_cases hv : stateKey s ∈ visited
        · rw [if_pos hv]
          exact ih _ visited _ expanded hmap hnd
        · rw [if_neg hv]
          have hmap' : List.map stateKey (expanded ++ [s])
              = visited ++ [stateKey s] := by
            rw [List.map_append, hmap]
            rfl
          have hnd' : (visited ++ [stateKey s]).Nodup :=
            nodup_snoc visited (stateKey s) hnd hv
          by_cases hg : isGoal s goal
          · rw [if_pos hg]
            rw [hmap']
            exact hnd'
          · rw [if_neg hg]
            exact ih _ (visited ++ [stateKey s]) _ (expanded ++ [s]) hmap' hnd'

/-- C7: within one `create_plan` call, under each of the `a_star`,
`bfs` and `dfs` strategies, no two expanded states have equal canonical
(key-sorted) serialisations: the visited set admits each canonical key
at most once. -/
theorem claim7_theorem {V : Type} [DecidableEq V] (acts : List (PAction V))
    (heur : Option (PState V → PState V → ℚ)) (maxDepth : Nat)
    (initial goal : PState V) :
    ((createPlan "a_star" acts heur maxDepth initial goal).expanded.map stateKey).Nodup ∧
    ((createPlan "bfs" acts heur maxDepth initial goal).expanded.map stateKey).Nodup ∧
    ((createPlan "dfs" acts heur maxDepth initial goal).expanded.map stateKey).Nodup := by
  have ha : createPlan "a_star" acts heur maxDepth initial goal
      = aStarSearch acts heur maxDepth initial goal := by
    unfold createPlan
    rw [if_pos rfl]
  have hb : createPlan "bfs" acts heur maxDepth initial goal
      = bfsSearch acts maxDepth initial goal := by
    unfold createPlan
    rw [if_neg (by decide), if_pos rfl]
  have hd : createPlan "dfs" acts heur maxDepth initial goal
      = dfsSearch acts maxDepth initial goal := by
    unfold createPlan
    rw [if_neg (by decide), if_neg (by decide), if_pos rfl]
  refine ⟨?_, ?_, ?_⟩
  · rw [ha]
    exact aStarGo_nodup acts goal heur maxDepth _ [] 0 [] rfl (List.nodup_nil)
  · rw [hb]
    exact bfsGo_nodup acts goal maxDepth _ [] 0 [] rfl (List.nodup_nil)
  · rw [hd]
    exact dfsGo_nodup acts goal maxDepth maxDepth _ [] 0 [] rfl (List.nodup_nil)

/-! ## Claim C8: empty plan on exhaustion, no exception -/

theorem bfsGo_outcome {V : Type} [DecidableEq V] (acts : List (PAction V))
    (goal : PState V) :
    ∀ (fuel : Nat) queue visited explored expanded,
      (bfsGo acts goal fuel queue visited explored expanded).outcome ≠ POutcome.typeErr ∧
      (∀ p c, (bfsGo acts goal fuel queue visited explored expanded).outcome
          = POutcome.plan p c →
        ∃ s ∈ (bfsGo acts goal fuel queue visited explored expanded).expanded,
          isGoal s goal = true) := by
  intro fuel
  induction fuel with
  | zero =>
    intro queue visited explored expanded
    exact ⟨by simp [bfsGo], by intro p c h; cases h⟩
  | succ n ih =>
    intro queue visited explored expanded
    cases queue with
    | nil => exact ⟨by simp [bfsGo], by intro p c h; cases h⟩
    | cons hd queue' =>
      obtain ⟨s, path, cost⟩ := hd
      simp only [bfsGo]
      by_cases hv : stateKey s ∈ visited
      · rw [if_pos hv]
        exact ih queue' visited _ expanded
      · rw [if_neg hv]
        by_cases hg : isGoal s goal
        · rw [if_pos hg]
          refine ⟨by simp, ?_⟩
          intro p c _
          exact ⟨s, List.mem_append_right _ (List.mem_singleton_self s), hg⟩
        · rw [if_neg hg]
          exact ih _ _ _ _

theorem dfsGo_outcome {V : Type} [DecidableEq V] (acts : List (PAction V))
    (goal : PState V) (maxD : Nat) :
    ∀ (fuel : Nat) stack visited explored expanded,
      (dfsGo acts goal maxD fuel stack visited explored expanded).outcome
          ≠ POutcome.typeErr ∧
      (∀ p c, (dfsGo acts goal maxD fuel stack visited explored expanded).outcome
          = POutcome.plan p c →
        ∃ s ∈ (dfsGo acts goal maxD fuel stack visited explored expanded).expanded,
          isGoal s goal = true) := by
  intro fuel
  induction fuel with
  | zero =>
    intro stack visited explored expanded
    exact ⟨by simp [dfsGo], by intro p c h; cases h⟩
  | succ n ih =>
    intro stack visited explored expanded
    simp only [dfsGo]
    cases hlast : stack.getLast? with
    | none => exact ⟨by simp, by intro p c h; cases h⟩
    | some hd =>
      obtain ⟨s, path, cost, depth⟩ := hd
      dsimp only
      by_cases hdep : maxD < depth
      · rw [if_pos hdep]
        exact ih _ _ _ _
      · rw [if_neg hdep]
        by_cases hv : stateKey s ∈ visited
        · rw [if_pos hv]
          exact ih _ _ _ _
        · rw [if_neg hv]
          by_cases hg : isGoal s goal
          · rw [if_pos hg]
            refine ⟨by simp, ?_⟩
            intro p c _
            exact ⟨s, List.mem_append_right _ (List.mem_singleton_self s), hg⟩
          · rw [if_neg hg]
            exact ih _ _ _ _

/-- The concrete `a_star` input of the C8 counterexample: two
always-applicable unit-cost actions, an unreachable goal. -/
def c8acts : List (PAction String) :=
  [⟨"go_left", fun _ => true, fun s => alSet s "pos" "L", 1⟩,
   ⟨"go_right", fun _ => true, fun s => alSet s "pos" "R", 1⟩]

/-- C8, counterexample: under the `a_star` strategy this input finds
no goal-satisfying state but `create_plan` raises TypeError instead of
returning an empty sequence, because the two successors of the initial
state tie on `f_score`. -/
theorem claim8_counterexample :
    (createPlan "a_star" c8acts none 100 [("pos", "C")] [("pos", "X")]).outcome
        = POutcome.typeErr ∧
      ((createPlan "a_star" c8acts none 100 [("pos", "C")] [("pos", "X")]).expanded.all
        (fun s => !(isGoal s [("pos", "X")]))) = true := by
  constructor
  · decide
  · decide

/-- C8 (amended): under the `bfs` and `dfs` strategies, if no expanded
state satisfies the goal within the node budget, `create_plan` returns
an empty sequence and never raises; under `a_star` a TypeError from a
frontier tie can propagate instead (see the counterexample). -/
theorem claim8_theorem {V : Type} [DecidableEq V] (acts : List (PAction V))
    (heur : Option (PState V → PState V → ℚ)) (maxDepth : Nat)
    (initial goal : PState V) :
    ((createPlan "bfs" acts heur maxDepth initial goal).outcome ≠ POutcome.typeErr ∧
      ((∀ s ∈ (createPlan "bfs" acts heur maxDepth initial goal).expanded,
          isGoal s goal = false) →
        planOf (createPlan "bfs" acts heur maxDepth initial goal) = [])) ∧
    ((createPlan "dfs" acts heur maxDepth initial goal).outcome ≠ POutcome.typeErr ∧
      ((∀ s ∈ (createPlan "dfs" acts heur maxDepth initial goal).expanded,
          isGoal s goal = false) →
        planOf (createPlan "dfs" acts heur maxDepth initial goal) = [])) := by
  have hb : createPlan "bfs" acts heur maxDepth initial goal
      = bfsSearch acts maxDepth initial goal := by
    unfold createPlan
    rw [if_neg (by decide), if_pos rfl]
  have hd : createPlan "dfs" acts heur maxDepth initial goal
      = dfsSearch acts maxDepth initial goal := by
    unfold createPlan
    rw [if_neg (by decide), if_neg (by decide), if_pos rfl]
  rw [hb, hd]
  constructor
  · obtain ⟨hne, hplan⟩ := bfsGo_outcome acts goal maxDepth [(initial, [], 0)] [] 0 []
    refine ⟨hne, ?_⟩
    intro hall
    unfold planOf
    cases hout : (bfsSearch acts maxDepth initial goal).outcome with
    | plan p c =>
      obtain ⟨s, hs, hsg⟩ := hplan p c hout
      rw [hall s hs] at hsg
      cases hsg
    | noPlan => rfl
    | typeErr => exact absurd hout hne
  · obtain ⟨hne, hplan⟩ := dfsGo_outcome acts goal maxDepth maxDepth
      [(initial, [], 0, 0)] [] 0 []
    refine ⟨hne, ?_⟩
    intro hall
    unfold planOf
    cases hout : (dfsSearch acts maxDepth initial goal).outcome with
    | plan p c =>
      obtain ⟨s, hs, hsg⟩ := hplan p c hout
      rw [hall s hs] at hsg
      cases hsg
    | noPlan => rfl
    | typeErr => exact absurd hout hne

/-- C8, witness: with no registered actions and an unsatisfied goal,
both `bfs` and `dfs` exhaust their frontier and return the empty plan. -/
theorem claim8_witness :
    planOf (createPlan "bfs" ([] : List (PAction Bool)) none 100
        [("x", true)] [("x", false)]) = [] ∧
      planOf (createPlan "dfs" ([] : List (PAction Bool)) none 100
        [("x", true)] [("x", false)]) = [] :=
  ⟨(claim8_theorem ([] : List (PAction Bool)) none 100
      [("x", true)] [("x", false)]).1.2 (by decide),
   (claim8_theorem ([] : List (PAction Bool)) none 100
      [("x", true)] [("x", false)]).2.2 (by decide)⟩

/-! ## Claim C1: heap membership lemmas and A* soundness -/

theorem mem_of_getElemQ {α : Type} {l : List α} {i : Nat} {x : α}
    (h : l[i]? = some x) : x ∈ l := by
  obtain ⟨hi, rfl⟩ := List.getElem?_eq_some_iff.mp h
  exact List.getElem_mem hi

theorem mem_of_getLastQ {α : Type} {l : List α} {x : α}
    (h : l.getLast? = some x) : x ∈ l := by
  cases l with
  | nil => cases h
  | cons a t =>
    have hne : (a :: t) ≠ [] := by simp
    rw [List.getLast?_eq_getLast_of_ne_nil hne] at h
    have hm := List.getLast_mem hne
    rwa [Option.some.inj h] at hm

theorem siftdownGo_mem {V : Type} [DecidableEq V] (startpos : Nat) (newitem : PEntry V) :
    ∀ (fuel pos : Nat) (heap res : List (PEntry V)),
      siftdownGo startpos newitem fuel pos heap = .ok res →
      ∀ x ∈ res, x ∈ heap ∨ x = newitem := by
  intro fuel
  induction fuel with
  | zero =>
    intro pos heap res h x hx
    simp only [siftdownGo] at h
    injection h with h
    subst h
    exact List.mem_or_eq_of_mem_set hx
  | succ n ih =>
    intro pos heap res h x hx
    simp only [siftdownGo] at h
    by_cases hpos : startpos < pos
    · rw [if_pos hpos] at h
      cases hpar : heap[(pos - 1) / 2]? with
      | none =>
        rw [hpar] at h
        injection h with h
        subst h
        exact List.mem_or_eq_of_mem_set hx
      | some parent =>
        rw [hpar] at h
        dsimp only at h
        cases hlt : entryLt newitem parent with
        | error err => rw [hlt] at h; cases h
        | ok b =>
          rw [hlt] at h
          cases b with
          | true =>
            rcases ih _ _ _ h x hx with hset | hni
            · rcases List.mem_or_eq_of_mem_set hset with h2 | h2
              · exact Or.inl h2
              · exact Or.inl (h2 ▸ mem_of_getElemQ hpar)
            · exact Or.inr hni
          | false =>
            injection h with h
            subst h
            exact List.mem_or_eq_of_mem_set hx
    · rw [if_neg hpos] at h
      injection h with h
      subst h
      exact List.mem_or_eq_of_mem_set hx

theorem siftdown_mem {V : Type} [DecidableEq V] {heap res : List (PEntry V)}
    {startpos pos : Nat} (h : siftdown heap startpos pos = .ok res) :
    ∀ x ∈ res, x ∈ heap := by
  intro x hx
  unfold siftdown at h
  cases h0 : heap[pos]? with
  | none =>
    rw [h0] at h
    injection h with h
    subst h
    exact hx
  | some newitem =>
    rw [h0] at h
    rcases siftdownGo_mem startpos newitem _ _ _ _ h x hx with h2 | h2
    · exact h2
    · exact h2 ▸ mem_of_getElemQ h0

theorem heappush_mem {V : Type} [DecidableEq V] {heap res : List (PEntry V)}
    {item : PEntry V} (h : heappush heap item = .ok res) :
    ∀ x ∈ res, x ∈ heap ∨ x = item := by
  intro x hx
  unfold heappush at h
  have h2 := siftdown_mem h x hx
  rcases List.mem_append.mp h2 with h3 | h3
  · exact Or.inl h3
  · exact Or.inr (List.mem_singleton.mp h3)

theorem siftupGo_mem {V : Type} [DecidableEq V] (endpos : Nat) :
    ∀ (fuel pos : Nat) (heap res : List (PEntry V)) (pos' : Nat),
      siftupGo endpos fuel pos heap = .ok (res, pos') →
      ∀ x ∈ res, x ∈ heap := by
  intro fuel
  induction fuel with
  | zero =>
    intro pos heap res pos' h x hx
    simp only [siftupGo] at h
    injection h with h
    rw [← (Prod.mk.injEq _ _ _ _).mp h |>.1] at hx
    exact hx
  | succ n ih =>
    intro pos heap res pos' h x hx
    simp only [siftupGo] at h
    by_cases hc : 2 * pos + 1 < endpos
    · rw [if_pos hc] at h
      cases hcp : pickChild endpos heap (2 * pos + 1) with
      | error err => rw [hcp] at h; cases h
      | ok cp =>
        rw [hcp] at h
        dsimp only at h
        cases h2 : heap[cp]? with
        | none =>
          rw [h2] at h
          injection h with h
          rw [← (Prod.mk.injEq _ _ _ _).mp h |>.1] at hx
          exact hx
        | some c =>
          rw [h2] at h
          have h3 := ih _ _ _ _ h x hx
          rcases List.mem_or_eq_of_mem_set h3 with h4 | h4
          · exact h4
          · exact h4 ▸ mem_of_getElemQ h2
    · rw [if_neg hc] at h
      injection h with h
      rw [← (Prod.mk.injEq _ _ _ _).mp h |>.1] at hx
      exact hx

theorem siftup_mem {V : Type} [DecidableEq V] {heap res : List (PEntry V)} {pos : Nat}
    (h : siftup heap pos = .ok res) : ∀ x ∈ res, x ∈ heap := by
  intro x hx
  unfold siftup at h
  cases h0 : heap[pos]? with
  | none =>
    rw [h0] at h
    injection h with h
    subst h
    exact hx
  | some newitem =>
    rw [h0] at h
    cases h1 : siftupGo heap.length (heap.length + 1) pos heap with
    | error err => rw [h1] at h; cases h
    | ok pr =>
      obtain ⟨h1heap, pos'⟩ := pr
      rw [h1] at h
      have h2 := siftdown_mem h x hx
      rcases List.mem_or_eq_of_mem_set h2 with h3 | h3
      · exact siftupGo_mem heap.length _ _ _ _ _ h1 x h3
      · exact h3 ▸ mem_of_getElemQ h0

theorem heappop_mem {V : Type} [DecidableEq V] {heap h' : List (PEntry V)}
    {e : PEntry V} (h : heappop heap = .ok (e, h')) :
    e ∈ heap ∧ ∀ x ∈ h', x ∈ heap := by
  unfold heappop at h
  cases h0 : heap.getLast? with
  | none => rw [h0] at h; cases h
  | some lastelt =>
    rw [h0] at h
    dsimp only at h
    have hlast : lastelt ∈ heap := mem_of_getLastQ h0
    cases h1 : heap.dropLast[0]? with
    | none =>
      rw [h1] at h
      injection h with h
      obtain ⟨he, hh⟩ := (Prod.mk.injEq _ _ _ _).mp h
      refine ⟨he ▸ hlast, ?_⟩
      intro x hx
      rw [← hh] at hx
      cases hx
    | some returnitem =>
      rw [h1] at h
      dsimp only at h
      cases h2 : siftup (heap.dropLast.set 0 lastelt) 0 with
      | error err => rw [h2] at h; cases h
      | ok h2heap =>
        rw [h2] at h
        injection h with h
        obtain ⟨he, hh⟩ := (Prod.mk.injEq _ _ _ _).mp h
        constructor
        · rw [← he]
          exact (List.dropLast_sublist heap).subset (mem_of_getElemQ h1)
        · intro x hx
          rw [← hh] at hx
          have h3 := siftup_mem h2 x hx
          rcases List.mem_or_eq_of_mem_set h3 with h4 | h4
          · exact (List.dropLast_sublist heap).subset h4
          · exact h4 ▸ hlast

theorem findAct_self {V : Type} (acts : List (PAction V))
    (hn : (acts.map PAction.name).Nodup) (a : PAction V) (ha : a ∈ acts) :
    findAct acts a.name = some a := by
  induction acts with
  | nil => cases ha
  | cons hd t ih =>
    rw [findAct]
    rcases List.mem_cons.mp ha with rfl | ha'
    · rw [if_pos rfl]
    · have hn' : (PAction.name hd :: t.map PAction.name).Nodup := by
        rw [List.map_cons] at hn
        exact hn
      have hnc := List.nodup_cons.mp hn'
      have hne : hd.name ≠ a.name := by
        intro hEq
        exact hnc.1 (hEq ▸ List.mem_map_of_mem _ ha')
      rw [if_neg hne]
      exact ih hnc.2 ha'

theorem execPlan_snoc {V : Type} (acts : List (PAction V))
    (hn : (acts.map PAction.name).Nodup) (a : PAction V) (ha : a ∈ acts) :
    ∀ (init : PState V) (path : List String) (s : PState V) (g : ℚ),
      execPlan acts init path = some (s, g) → a.preconditions s = true →
      ∃ g2, execPlan acts init (path ++ [a.name]) = some (a.effects s, g2) ∧
        g2 = g + a.cost := by
  intro init path
  induction path generalizing init with
  | nil =>
    intro s g h hpre
    have h' : (some (init, (0 : ℚ)) : Option (PState V × ℚ)) = some (s, g) := h
    simp only [Option.some.injEq, Prod.mk.injEq] at h'
    obtain ⟨rfl, rfl⟩ := h'
    refine ⟨qAdd a.cost 0, ?_, ?_⟩
    · rw [List.nil_append, execPlan, findAct_self acts hn a ha]
      dsimp only
      rw [if_pos hpre]
      rfl
    · rw [qAdd_eq]
      ring
  | cons n ns ih =>
    intro s g h hpre
    rw [execPlan] at h
    cases hf : findAct acts n with
    | none => rw [hf] at h; cases h
    | some b =>
      rw [hf] at h
      dsimp only at h
      by_cases hb : b.preconditions init
      · rw [if_pos hb] at h
        cases hrec : execPlan acts (b.effects init) ns with
        | none => rw [hrec] at h; cases h
        | some pr =>
          obtain ⟨s1, g1⟩ := pr
          rw [hrec] at h
          simp only [Option.map_some', Option.some.injEq, Prod.mk.injEq] at h
          obtain ⟨rfl, rfl⟩ := h
          obtain ⟨g2, hex, hg2⟩ := ih (b.effects init) s1 g1 hrec hpre
          refine ⟨qAdd b.cost g2, ?_, ?_⟩
          · rw [List.cons_append, execPlan, hf]
            dsimp only
            rw [if_pos hb, hex]
            rfl
          · rw [qAdd_eq, hg2, qAdd_eq]
            ring
      · rw [if_neg hb] at h
        cases h

theorem expandPush_inv {V : Type} [DecidableEq V] (acts : List (PAction V))
    (hn : (acts.map PAction.name).Nodup) (init goal : PState V)
    (heur : Option (PState V → PState V → ℚ)) (e : PEntry V)
    (he : execPlan acts init e.path = some (e.state, e.g)) :
    ∀ (as : List (PAction V)), (∀ a ∈ as, a ∈ acts) →
      ∀ (frontier res : List (PEntry V)),
      (∀ x ∈ frontier, execPlan acts init x.path = some (x.state, x.g)) →
      expandPush goal heur e as frontier = .ok res →
      ∀ x ∈ res, execPlan acts init x.path = some (x.state, x.g) := by
  intro as
  induction as with
  | nil =>
    intro _ frontier res hf h x hx
    simp only [expandPush] at h
    injection h with h
    subst h
    exact hf x hx
  | cons a rest ih =>
    intro hsub frontier res hf h x hx
    have hamem : a ∈ acts := hsub a (List.mem_cons_self _ _)
    simp only [expandPush] at h
    by_cases hpre : a.preconditions e.state
    · rw [if_pos hpre] at h
      split at h
      · cases h
      · next frontier' heq =>
        refine ih (fun b hb => hsub b (List.mem_cons_of_mem _ hb)) frontier' res ?_ h x hx
        intro y hy
        rcases heappush_mem heq y hy with hy2 | hy2
        · exact hf y hy2
        · obtain ⟨g2, hex, hg2⟩ :=
            execPlan_snoc acts hn a hamem init e.path e.state e.g he hpre
          subst hy2
          dsimp only
          rw [hex]
          have : qAdd e.g a.cost = g2 := by
            rw [qAdd_eq, hg2]
          rw [this]
    · rw [if_neg hpre] at h
      exact ih (fun b hb => hsub b (List.mem_cons_of_mem _ hb)) frontier res hf h x hx

theorem aStarGo_sound {V : Type} [DecidableEq V] (acts : List (PAction V))
    (hn : (acts.map PAction.name).Nodup) (init goal : PState V)
    (heur : Option (PState V → PState V → ℚ)) :
    ∀ (fuel : Nat) (frontier : List (PEntry V)) visited explored expanded
      (p : List String) (c : ℚ),
      (∀ e ∈ frontier, execPlan acts init e.path = some (e.state, e.g)) →
      (aStarGo acts goal heur fuel frontier visited explored expanded).outcome
        = POutcome.plan p c →
      ∃ s, execPlan acts init p = some (s, c) ∧ isGoal s goal = true := by
  intro fuel
  induction fuel with
  | zero =>
    intro frontier visited explored expanded p c _ h
    cases h
  | succ n ih =>
    intro frontier visited explored expanded p c hf h
    simp only [aStarGo] at h
    by_cases hempt : frontier.isEmpty
    · rw [if_pos hempt] at h
      cases h
    · rw [if_neg hempt] at h
      cases hpop : heappop frontier with
      | error err => rw [hpop] at h; cases h
      | ok pr =>
        obtain ⟨e, frontier'⟩ := pr
        rw [hpop] at h
        dsimp only at h
        obtain ⟨hemem, hsub⟩ := heappop_mem hpop
        have hfe := hf e hemem
        have hf' : ∀ x ∈ frontier', execPlan acts init x.path = some (x.state, x.g) :=
          fun x hx => hf x (hsub x hx)
        by_cases hv : stateKey e.state ∈ visited
        · rw [if_pos hv] at h
          exact ih frontier' visited _ expanded p c hf' h
        · rw [if_neg hv] at h
          by_cases hg : isGoal e.state goal
          · rw [if_pos hg] at h
            simp only [POutcome.plan.injEq] at h
            obtain ⟨rfl, rfl⟩ := h
            exact ⟨e.state, hfe, hg⟩
          · rw [if_neg hg] at h
            cases hexp : expandPush goal heur e acts frontier' with
            | error err => rw [hexp] at h; cases h
            | ok f2 =>
              rw [hexp] at h
              exact ih f2 _ _ _ p c
                (expandPush_inv acts hn init goal heur e hfe acts
                  (fun a ha => ha) frontier' f2 hf' hexp) h

/-- C1 (amended): with an admissible heuristic the first popped
goal-satisfying state is not guaranteed to yield a minimum-cost plan
(the search closes states on first pop and never reopens them, so an
admissible but inconsistent heuristic yields a suboptimal plan — see
the counterexample); what does hold is soundness: when `create_plan`
with the `a_star` strategy returns a plan with reported cost `c` (and
the registered action names are distinct so the returned names denote
the actions used), the plan is sequentially applicable from the
initial state, reaches a goal-satisfying state, and its total action
cost equals `c`. -/
theorem claim1_theorem {V : Type} [DecidableEq V] (acts : List (PAction V))
    (heur : Option (PState V → PState V → ℚ)) (maxDepth : Nat)
    (initial goal : PState V) (hn : (acts.map PAction.name).Nodup)
    (p : List String) (c : ℚ)
    (h : (createPlan "a_star" acts heur maxDepth initial goal).outcome
      = POutcome.plan p c) :
    ∃ s, execPlan acts initial p = some (s, c) ∧ isGoal s goal = true := by
  have ha : createPlan "a_star" acts heur maxDepth initial goal
      = aStarSearch acts heur maxDepth initial goal := by
    unfold createPlan
    rw [if_pos rfl]
  rw [ha] at h
  refine aStarGo_sound acts hn initial goal heur maxDepth _ [] 0 [] p c ?_ h
  intro e he
  rcases List.mem_singleton.mp he with rfl
  rfl

/-- The four-location counterexample to A* optimality under a merely
admissible heuristic: direct `sa` (cost 3) and the cheaper detour
`sb; ba` (cost 2) both reach `A`, from which `ag` (cost 10) reaches
the goal. -/
def c1acts : List (PAction String) :=
  [⟨"sa", fun s => decide (alGet s "at" = some "S"), fun s => alSet s "at" "A", 3⟩,
   ⟨"sb", fun s => decide (alGet s "at" = some "S"), fun s => alSet s "at" "B", 1⟩,
   ⟨"ba", fun s => decide (alGet s "at" = some "B"), fun s => alSet s "at" "A", 1⟩,
   ⟨"ag", fun s => decide (alGet s "at" = some "A"), fun s => alSet s "at" "G", 10⟩]

/-- The admissible but inconsistent heuristic of the C1
counterexample: 0 at `A` (true remaining cost 10), 3 at `B`
(true remaining cost 11), 0 elsewhere. -/
def c1heur : PState String → PState String → ℚ := fun s _ =>
  if alGet s "at" = some "A" then 0 else if alGet s "at" = some "B" then 3 else 0

/-- C1, counterexample: the heuristic never overestimates the true
remaining cost over the (finite, fully enumerated at bound 4) plan
space, yet `create_plan('a_star')` returns the cost-13 plan
`[sa, ag]` while the valid cost-12 plan `[sb, ba, ag]` exists well
inside the node budget — the claimed optimality fails. -/
theorem claim1_counterexample :
    (createPlan "a_star" c1acts (some c1heur) 100 [("at", "S")] [("at", "G")]).outcome
        = POutcome.plan ["sa", "ag"] 13 ∧
      ((plansUpTo c1acts 4 [("at", "S")]).all fun t =>
        (goalCosts c1acts 4 t.2.2 [("at", "G")]).all fun c =>
          decide (c1heur t.2.2 [("at", "G")] ≤ c)) = true ∧
      (goalCosts c1acts 4 [("at", "S")] [("at", "G")]).min? = some 12 ∧
      execPlan c1acts [("at", "S")] ["sb", "ba", "ag"] = some ([("at", "G")], 12) ∧
      (13 : ℚ) ≠ 12 := by
  refine ⟨?_, ?_, ?_, ?_, ?_⟩
  · decide
  · decide
  · decide
  · decide
  · decide

/-- The single action of the C1 witness. -/
def c1wact : PAction Bool :=
  ⟨"move", fun st => decide (alGet st "at_goal" = some false),
   fun st => alSet st "at_goal" true, 1⟩

/-- C1, witness: the soundness theorem applied to the one-action
problem of spec scenario 2 run under `a_star`, whose returned plan
`[move]` executes from the initial state to the goal at cost 1. -/
theorem claim1_witness :
    ∃ s, execPlan [c1wact] [("at_goal", false)] ["move"] = some (s, 1) ∧
      isGoal s [("at_goal", true)] = true :=
  claim1_theorem [c1wact] none 100 [("at_goal", false)] [("at_goal", true)]
    (by decide) ["move"] 1 (by decide)

end AgentCore
